import Mathlib

set_option maxRecDepth 8000

/-!
Verification of the CAN signal mapping engine of libopeninv-arduino
(src/canmap.cpp, src/params.cpp, src/include/pdu.h) against its
natural-language specification.  Machine integers are modelled as `Nat`
(with explicit `% 2^w` where C truncates) and `Int`; C `float` values in
the scaling arithmetic are modelled as exact rationals `ℚ`.
-/

namespace CanMap

/-- Modelled from the spec: `MAX_MESSAGES`, the fixed length of the send and
receive tables, is declared in the missing header `canmap.h`; the spec only
says the tables are two parallel arrays of fixed length `MAX_MESSAGES`. -/
def MAX_MESSAGES : ℕ := 10

/-- Modelled from the spec: `MAX_ITEMS`, the number of usable cells of the
slot pool (the pool has `MAX_ITEMS + 1` cells, the extra cell being the
end-of-list sentinel), is declared in the missing header `canmap.h`. -/
def MAX_ITEMS : ℕ := 50

/-- `#define ITEM_UNSET 0xff` (canmap.cpp line 12): the "free cell" sentinel. -/
def ITEM_UNSET : ℕ := 0xff

/-- Modelled from the spec: `MAX_COB_ID = 0x1FFFFFFF` (spec section 4.4),
declared in the missing header `canmap.h`. -/
def MAX_COB_ID : ℕ := 0x1FFFFFFF

/-- Modelled from the spec: `CAN_FORCE_EXTENDED = 0x20000000` (spec section
4.4), declared in the missing header `canmap.h`. -/
def CAN_FORCE_EXTENDED : ℕ := 0x20000000

/-- `SHIFT_FORCE_FLAG(1)` in the `CAN_EXT` build: bit 29 (canmap.cpp l.20). -/
def SHIFT_FORCE : ℕ := 2 ^ 29

/-- Modelled from the spec: the error codes `CAN_ERR_*` are declared in the
missing header `canmap.h`; the spec (section 7) only requires them to be
negative return codes, hence distinct negative constants. -/
def CAN_ERR_INVALID_ID : ℤ := -1

/-- Modelled from the spec: see `CAN_ERR_INVALID_ID`. -/
def CAN_ERR_INVALID_OFS : ℤ := -2

/-- Modelled from the spec: see `CAN_ERR_INVALID_ID`. -/
def CAN_ERR_INVALID_LEN : ℤ := -3

/-- Modelled from the spec: see `CAN_ERR_INVALID_ID`. -/
def CAN_ERR_MAXITEMS : ℤ := -4

/-- Modelled from the spec: see `CAN_ERR_INVALID_ID`. -/
def CAN_ERR_MAXMESSAGES : ℤ := -5

/-- `CANPOS` (one signal slot).  `mapParam` is `uint16_t`, `gain` a C
`float` modelled as `ℚ`, `offset` an `int8_t` modelled as `ℤ`, `offsetBits`
a `uint8_t`, `numBits` an `int8_t` whose sign encodes endianness, `next`
a `uint8_t` intrusive link. -/
structure CANPOS where
  mapParam : ℕ
  gain : ℚ
  offset : ℤ
  offsetBits : ℕ
  numBits : ℤ
  next : ℕ
deriving DecidableEq, Repr

/-- The out-of-range read default for the slot pool: a free cell
(`next = ITEM_UNSET`), so that walking out of the pool terminates, mirroring
that in-bounds C code never reads those cells. -/
def defaultPos : CANPOS := ⟨0, 1, 0, 0, 0, ITEM_UNSET⟩

/-- `CANIDMAP`: a CAN identifier paired with the index of its first slot
(`first = MAX_ITEMS` marks an empty entry). -/
structure CANIDMAP where
  canId : ℕ
  first : ℕ
deriving DecidableEq, Repr

/-- Out-of-range read default for the id tables: an empty entry. -/
def defaultIdMap : CANIDMAP := ⟨0, MAX_ITEMS⟩

/-- Byte swap of a 32-bit word, as done by
`bptr = (uint8_t*)&word; (bptr[0] << 24) | (bptr[1] << 16) | (bptr[2] << 8) | bptr[3]`
on the little-endian host (canmap.cpp lines 97-98 and 177-178). -/
def bswap32 (w : ℕ) : ℕ :=
  ((w % 256) <<< 24) ||| (((w >>> 8) % 256) <<< 16) |||
    (((w >>> 16) % 256) <<< 8) ||| (w >>> 24)

/-- The field mask `(1L << numBits) - 1` of `HandleRx` (canmap.cpp l.120)
and `(1UL << numBits) - 1` of `SendAll` (l.173): on the 32-bit targets a
shift by 32 yields 0, so for `1 ≤ n ≤ 32` the mask is `2^n - 1`. -/
def fieldMask (numBits : ℕ) : ℕ := 2 ^ numBits - 1

/-- The raw bit extraction of `CanMap::HandleRx` (canmap.cpp lines 74-121)
for one slot: produces the unsigned `word = (word >> pos) & mask` value,
before sign handling and scaling.  `d0`, `d1` are `data[0]`, `data[1]`
(each `< 2^32`). -/
def HandleRxRaw (s : CANPOS) (d0 d1 : ℕ) : ℕ :=
  let numBits : ℕ := s.numBits.natAbs
  let wp : ℕ × ℕ :=
    if s.numBits < 0 then
      -- big endian
      let wp0 : ℕ × ℕ :=
        if s.offsetBits < 32 then
          (d0, s.offsetBits)
        else if (s.offsetBits : ℤ) + s.numBits > 31 then
          (d1, s.offsetBits - 32)
        else
          let pos := s.offsetBits - numBits + 1
          ((d0 >>> pos) ||| ((d1 <<< (32 - pos)) % 2 ^ 32), numBits - 1)
      (bswap32 wp0.1, 31 - wp0.2)
    else
      -- little endian
      if s.offsetBits > 31 then
        (d1, s.offsetBits - 32)
      else if (s.offsetBits : ℤ) + s.numBits ≤ 32 then
        (d0, s.offsetBits)
      else
        ((d0 >>> s.offsetBits) ||| ((d1 <<< (32 - s.offsetBits)) % 2 ^ 32), 0)
  (wp.1 >>> wp.2) &&& fieldMask numBits

/-- The scaling applied by `HandleRx` after extraction (canmap.cpp lines
139-140): `val += curPos->offset; val *= curPos->gain;`.  The build here has
`CAN_SIGNED` undefined, so `val` starts as the unsigned raw word. -/
def HandleRxVal (s : CANPOS) (d0 d1 : ℕ) : ℚ :=
  ((HandleRxRaw s d0 d1 : ℚ) + (s.offset : ℚ)) * s.gain

/-- Truncation toward zero, the C cast from `float` to a signed integer. -/
def truncToInt (q : ℚ) : ℤ := if 0 ≤ q then ⌊q⌋ else ⌈q⌉

/-- Reinterpretation of a signed integer as `uint32_t`. -/
def u32ofInt (x : ℤ) : ℕ := (x % 2 ^ 32).toNat

/-- The scaling stage of `CanMap::SendAll` (canmap.cpp lines 169-170):
`val *= curPos->gain; val += curPos->offset;`. -/
def SendAllScaled (s : CANPOS) (v : ℚ) : ℚ := v * s.gain + s.offset

/-- The raw field value computed by `SendAll` (canmap.cpp lines 171-173):
`uint32_t ival = (int32_t)val; ival &= (1UL << numBits) - 1;`. -/
def SendAllIval (s : CANPOS) (v : ℚ) : ℕ :=
  u32ofInt (truncToInt (SendAllScaled s v)) &&& fieldMask s.numBits.natAbs

/-- The deposit step of `CanMap::SendAll` (canmap.cpp lines 175-209): ORs
the masked raw value `ival` into the payload `(d0, d1)` at the slot
position, in the slot endianness. -/
def SendAllDeposit (s : CANPOS) (ival : ℕ) (d : ℕ × ℕ) : ℕ × ℕ :=
  if s.numBits < 0 then
    -- big-endian
    let b := bswap32 ival
    if s.offsetBits < 32 then
      (d.1 ||| (b >>> (31 - s.offsetBits)), d.2)
    else if (s.offsetBits : ℤ) + s.numBits ≥ 31 then
      (d.1, d.2 ||| (b >>> (63 - s.offsetBits)))
    else
      (d.1 ||| ((b <<< (s.offsetBits - 31)) % 2 ^ 32),
       d.2 ||| (b >>> (63 - s.offsetBits)))
  else
    -- little-endian
    if s.offsetBits > 31 then
      (d.1, d.2 ||| ((ival <<< (s.offsetBits - 32)) % 2 ^ 32))
    else if (s.offsetBits : ℤ) + s.numBits ≤ 32 then
      (d.1 ||| ((ival <<< s.offsetBits) % 2 ^ 32), d.2)
    else
      (d.1 ||| ((ival <<< s.offsetBits) % 2 ^ 32),
       d.2 ||| (ival >>> (32 - s.offsetBits)))

end CanMap

namespace Param

/-- `PARAM_TYPE` (old-style parameter registry, params.cpp). -/
inductive PARAM_TYPE where
  | TYPE_PARAM
  | TYPE_TESTPARAM
  | TYPE_SPOTVALUE
deriving DecidableEq, Repr

export PARAM_TYPE (TYPE_PARAM TYPE_TESTPARAM TYPE_SPOTVALUE)

/-- `Param::Attributes` (the fields used by the mapping engine: the numeric
range, the stable id and the parameter kind; `def` is spelled `defVal`). -/
structure Attributes where
  min : ℚ
  max : ℚ
  defVal : ℚ
  id : ℕ
  type : PARAM_TYPE
deriving DecidableEq, Repr

/-- The macro-expanded `attribs[]` table of params.cpp for the `PARAM_LIST`
of src/include/param_prj.h: two tunable parameters followed by twelve
spot values. -/
def attribs : List Attributes :=
  [⟨1, 127, 22, 1, TYPE_PARAM⟩,       -- canNodeId
   ⟨0, 1, 0, 2, TYPE_PARAM⟩,          -- isaInit
   ⟨0, 0, 0, 1100, TYPE_SPOTVALUE⟩,   -- isaCurrent
   ⟨0, 0, 0, 1101, TYPE_SPOTVALUE⟩,   -- isaVoltage1
   ⟨0, 0, 0, 1102, TYPE_SPOTVALUE⟩,   -- isaVoltage2
   ⟨0, 0, 0, 1103, TYPE_SPOTVALUE⟩,   -- isaVoltage3
   ⟨0, 0, 0, 1104, TYPE_SPOTVALUE⟩,   -- isaTemperature
   ⟨0, 0, 0, 1105, TYPE_SPOTVALUE⟩,   -- isaAh
   ⟨0, 0, 0, 1106, TYPE_SPOTVALUE⟩,   -- isaKW
   ⟨0, 0, 0, 1107, TYPE_SPOTVALUE⟩,   -- isaKWh
   ⟨0, 0, 0, 2084, TYPE_SPOTVALUE⟩,   -- BMS_Vmin
   ⟨0, 0, 0, 2085, TYPE_SPOTVALUE⟩,   -- BMS_Vmax
   ⟨0, 0, 0, 2086, TYPE_SPOTVALUE⟩,   -- BMS_Tmin
   ⟨0, 0, 0, 2087, TYPE_SPOTVALUE⟩]   -- BMS_Tmax

/-- `PARAM_LAST`: the number of declared parameters. -/
def PARAM_LAST : ℕ := 14

/-- Modelled from the spec: `PARAM_INVALID`, the enumerator following
`PARAM_LAST` in the missing old-style header (`params.h` of the `Param`
namespace), the not-found result of `NumFromId`. -/
def PARAM_INVALID : ℕ := 15

/-- Out-of-range `attribs[]` read default (in-range code never uses it). -/
def defaultAttr : Attributes := ⟨0, 0, 0, 0, TYPE_SPOTVALUE⟩

/-- `Param::GetAttrib` (params.cpp lines 223-226): `&attribs[ParamNum]`. -/
def GetAttrib (num : ℕ) : Attributes := attribs.getD num defaultAttr

/-- `Param::GetType` (params.cpp lines 260-263): `attribs[param].type`. -/
def GetType (num : ℕ) : PARAM_TYPE := (GetAttrib num).type

/-- `Param::NumFromId` (params.cpp lines 201-215): linear scan for the first
parameter index with the given id, `PARAM_INVALID` when absent. -/
def NumFromId (id : ℕ) : ℕ :=
  match (List.range PARAM_LAST).find? (fun i => (GetAttrib i).id = id) with
  | some i => i
  | none => PARAM_INVALID

/-- Modelled from the spec: `FP_TOFLOAT` of the missing header my_math.h;
the spec (section 4.2) fixes the 5-bit fixed-point decode as `v / 32.0`. -/
def FP_TOFLOAT (v : ℤ) : ℚ := (v : ℚ) / 32

/-- Modelled from the spec: `FP_FROMFLT` of the missing header my_math.h;
the spec (section 4.2) fixes the fixed-point encode as `round(v * 32.0)`. -/
def FP_FROMFLT (v : ℚ) : ℤ := ⌊v * 32 + 1 / 2⌋

/-- The parameter value store `values[]` of params.cpp. -/
abbrev Values := ℕ → ℚ

/-- Write one cell of `values[]`. -/
def writeValue (vals : Values) (num : ℕ) (v : ℚ) : Values :=
  fun j => if j = num then v else vals j

/-- `Param::Set` (params.cpp lines 79-93): converts the 5-bit fixed-point
input to float; if `min ≤ v ≤ max` stores it, invokes the `Change` callback
and returns 0, otherwise returns -1 leaving the store untouched.  The result
is `(return code, new values, whether Change was invoked)`. -/
def Set (vals : Values) (num : ℕ) (v : ℤ) : ℤ × Values × Bool :=
  let floatVal := FP_TOFLOAT v
  if (GetAttrib num).min ≤ floatVal ∧ floatVal ≤ (GetAttrib num).max then
    (0, writeValue vals num floatVal, true)
  else
    (-1, vals, false)

/-- `Param::SetFloat` (params.cpp lines 168-171): unchecked float write. -/
def SetFloat (vals : Values) (num : ℕ) (v : ℚ) : Values :=
  writeValue vals num v

/-- `Param::GetFloat` (params.cpp lines 124-127). -/
def GetFloat (vals : Values) (num : ℕ) : ℚ := vals num

end Param

namespace CanMap

/-- The parameter write performed by `HandleRx` for one slot (canmap.cpp
lines 142-145): tunable and test parameters go through the range-checked
fixed-point `Param::Set`, spot values through the unchecked
`Param::SetFloat`. -/
def HandleRxWriteSlot (s : CANPOS) (d0 d1 : ℕ) (vals : Param.Values) :
    Param.Values :=
  let val := HandleRxVal s d0 d1
  if Param.GetType s.mapParam = Param.TYPE_PARAM ∨
      Param.GetType s.mapParam = Param.TYPE_TESTPARAM then
    (Param.Set vals s.mapParam (Param.FP_FROMFLT val)).2.1
  else
    Param.SetFloat vals s.mapParam val

end CanMap

namespace CanMap

/-- The walk fuel: the spec (section 3) guarantees every slot list reaches
its terminating sentinel in at most `MAX_ITEMS` steps, so `MAX_ITEMS + 1`
steps of fuel make the fuelled walks coincide with the unbounded C loops on
well-formed tables. -/
def FUEL : ℕ := MAX_ITEMS + 1

/-- `MASK_EXT_FORCE` (canmap.cpp l.16): clear the stored force-extended flag
bit (`~SHIFT_FORCE_FLAG(1)` under `uint32_t`). -/
def maskForce (id : ℕ) : ℕ := id &&& (2 ^ 32 - 1 - SHIFT_FORCE)

/-- The whole mapping engine state: the two id tables and the slot pool. -/
structure CanMapState where
  canSendMap : List CANIDMAP
  canRecvMap : List CANIDMAP
  canPosMap : List CANPOS
deriving DecidableEq, Repr

/-- `CanMap::ClearMap` applied to both tables (the constructor state): every
entry empty, every pool cell free. -/
def initialState : CanMapState :=
  ⟨List.replicate MAX_MESSAGES defaultIdMap,
   List.replicate MAX_MESSAGES defaultIdMap,
   List.replicate (MAX_ITEMS + 1) defaultPos⟩

/-- `CanMap::FindById` (canmap.cpp lines 473-481): scan the active prefix of
an id table for an entry matching after clearing the force flag on both
sides. -/
def FindById : List CANIDMAP → ℕ → Option CANIDMAP
  | [], _ => none
  | e :: rest, canId =>
    if e.first = MAX_ITEMS then none
    else if maskForce e.canId = maskForce canId then some e
    else FindById rest canId

/-- Position-returning variant of `FindById` (the C code works with a
pointer into the array; the model needs the index to update the entry). -/
def FindByIdIdx : List CANIDMAP → ℕ → Option ℕ
  | [], _ => none
  | e :: rest, canId =>
    if e.first = MAX_ITEMS then none
    else if maskForce e.canId = maskForce canId then some 0
    else (FindByIdIdx rest canId).map (· + 1)

/-- The `forEachPosMap` walk of `HandleRx` (canmap.cpp lines 72-146):
process each slot while its `next` is not `ITEM_UNSET`, writing the decoded
value, then follow `next`. -/
def HandleRxChain (pool : List CANPOS) (d0 d1 : ℕ) :
    ℕ → Param.Values → ℕ → Param.Values
  | _, vals, 0 => vals
  | idx, vals, fuel + 1 =>
    let s := pool.getD idx defaultPos
    if s.next = ITEM_UNSET then vals
    else HandleRxChain pool d0 d1 s.next (HandleRxWriteSlot s d0 d1 vals) fuel

/-- `CanMap::HandleRx` (canmap.cpp lines 64-148): drop the frame while a
save is in flight, otherwise look the id up in the receive table and decode
every bound slot into the parameter store. -/
def HandleRx (isSaving : Bool) (st : CanMapState) (vals : Param.Values)
    (canId d0 d1 : ℕ) : Param.Values :=
  if isSaving then vals
  else
    match FindById st.canRecvMap canId with
    | none => vals
    | some e => HandleRxChain st.canPosMap d0 d1 e.first vals FUEL

/-- The inner slot loop of `CanMap::SendAll` (canmap.cpp lines 163-210):
each iteration first checks `isSaving` and aborts the whole call (`none`),
otherwise encodes the slot parameter into the payload. -/
def SendChainData (isSaving : Bool) (pool : List CANPOS) (vals : Param.Values) :
    ℕ × ℕ → ℕ → ℕ → Option (ℕ × ℕ)
  | d, _, 0 => some d
  | d, idx, fuel + 1 =>
    let s := pool.getD idx defaultPos
    if s.next = ITEM_UNSET then some d
    else if isSaving then none
    else
      SendChainData isSaving pool vals
        (SendAllDeposit s (SendAllIval s (Param.GetFloat vals s.mapParam)) d)
        s.next fuel

/-- The outer loop of `CanMap::SendAll` over the active prefix of the send
table; produces the list of emitted frames `(canId, data[0], data[1])`. -/
def SendAllFrames (isSaving : Bool) (pool : List CANPOS) (vals : Param.Values) :
    List CANIDMAP → List (ℕ × ℕ × ℕ)
  | [] => []
  | e :: rest =>
    if e.first = MAX_ITEMS then []
    else
      match SendChainData isSaving pool vals (0, 0) e.first FUEL with
      | none => []
      | some d => (e.canId, d.1, d.2) :: SendAllFrames isSaving pool vals rest

/-- `CanMap::SendAll` (canmap.cpp lines 157-214) as the list of frames
handed to the driver. -/
def SendAll (isSaving : Bool) (st : CanMapState) (vals : Param.Values) :
    List (ℕ × ℕ × ℕ) :=
  SendAllFrames isSaving st.canPosMap vals st.canSendMap

/-- The C cast of a `uint8_t` to `int8_t` (canmap.cpp l.414). -/
def int8OfByte (b : ℕ) : ℤ := if b < 128 then (b : ℤ) else (b : ℤ) - 256

/-- The walk to the last live slot of a chain (canmap.cpp lines 445-446):
follow indices until the `MAX_ITEMS` terminator, remembering the last one
visited; `none` when the chain is empty. -/
def LastChainIdx (pool : List CANPOS) : ℕ → ℕ → Option ℕ
  | _, 0 => none
  | idx, fuel + 1 =>
    if idx = MAX_ITEMS then none
    else
      match LastChainIdx pool (pool.getD idx defaultPos).next fuel with
      | none => some idx
      | some j => some j

/-- The number of entries counted by `forEachCanMap` (canmap.cpp lines
465-468): the length of the active prefix. -/
def activeCount (m : List CANIDMAP) : ℕ :=
  (m.takeWhile (fun e => e.first ≠ MAX_ITEMS)).length

/-- The allocation part of `CanMap::Add` (canmap.cpp lines 417-470): find
or allocate the id entry, allocate a slot from the free pool, fill it and
link it at the end of the chain of the entry; returns the error code or the
active entry count, together with the updated table and pool. -/
def AddAlloc (canMap : List CANIDMAP) (pool : List CANPOS) (param canId offsetBits : ℕ)
    (length : ℤ) (gain : ℚ) (offset : ℤ) : ℤ × List CANIDMAP × List CANPOS :=
  let entryIdx : Option ℕ :=
    match FindByIdIdx canMap canId with
    | some i => some i
    | none =>
      (List.range MAX_MESSAGES).find?
        (fun i => (canMap.getD i defaultIdMap).first = MAX_ITEMS)
  match entryIdx with
  | none => (CAN_ERR_MAXMESSAGES, canMap, pool)
  | some i =>
    let canMap1 :=
      if (FindByIdIdx canMap canId).isSome then canMap
      else canMap.set i { canMap.getD i defaultIdMap with canId := canId }
    match (List.range MAX_ITEMS).find?
        (fun j => (pool.getD j defaultPos).next = ITEM_UNSET) with
    | none => (CAN_ERR_MAXITEMS, canMap1, pool)
    | some freeIndex =>
      let e := canMap1.getD i defaultIdMap
      let preceding := LastChainIdx pool e.first FUEL
      let pool1 := pool.set freeIndex
        ⟨param, gain, offset, offsetBits, length, MAX_ITEMS⟩
      match preceding with
      | none =>
        let canMap2 := canMap1.set i { e with first := freeIndex }
        ((activeCount canMap2 : ℤ), canMap2, pool1)
      | some j =>
        let pool2 := pool1.set j
          { pool1.getD j defaultPos with next := freeIndex }
        ((activeCount canMap1 : ℤ), canMap1, pool2)

/-- The validation guards of `CanMap::Add` (canmap.cpp lines 406-415) in
front of the allocation part `AddAlloc`. -/
def Add (canMap : List CANIDMAP) (pool : List CANPOS) (param canId offsetBits : ℕ)
    (length : ℤ) (gain : ℚ) (offset : ℤ) : ℤ × List CANIDMAP × List CANPOS :=
  if length = 0 ∨ 32 < length.natAbs then (CAN_ERR_INVALID_LEN, canMap, pool)
  else if 0 < length ∧ 63 < (offsetBits : ℤ) + length - 1 then
    (CAN_ERR_INVALID_OFS, canMap, pool)
  else if length < 0 ∧ 63 < offsetBits then (CAN_ERR_INVALID_OFS, canMap, pool)
  else if length < 0 ∧ int8OfByte offsetBits + length + 1 < 0 then
    (CAN_ERR_INVALID_OFS, canMap, pool)
  else
    AddAlloc canMap pool param canId offsetBits length gain offset

/-- `CanMap::AddSend` (canmap.cpp lines 216-220): reject ids above
`MAX_COB_ID` (without masking the force flag), then delegate to `Add` on
the send table. -/
def AddSend (st : CanMapState) (param canId offsetBits : ℕ) (length : ℤ)
    (gain : ℚ) (offset : ℤ) : ℤ × CanMapState :=
  if MAX_COB_ID < canId then (CAN_ERR_INVALID_ID, st)
  else
    let r := Add st.canSendMap st.canPosMap param canId offsetBits length gain offset
    (r.1, ⟨r.2.1, st.canRecvMap, r.2.2⟩)

/-- `CanMap::AddRecv` (canmap.cpp lines 227-237): strip the
`CAN_FORCE_EXTENDED` request bit, reject if the remaining id exceeds
`MAX_COB_ID`, re-encode the force request as the internal flag bit and
delegate to `Add` on the receive table. -/
def AddRecv (st : CanMapState) (param canId offsetBits : ℕ) (length : ℤ)
    (gain : ℚ) (offset : ℤ) : ℤ × CanMapState :=
  let forceExtended : Bool := canId &&& CAN_FORCE_EXTENDED ≠ 0
  let moddedId := canId &&& (2 ^ 32 - 1 - CAN_FORCE_EXTENDED)
  if MAX_COB_ID < moddedId then (CAN_ERR_INVALID_ID, st)
  else
    let moddedId2 := moddedId ||| (if forceExtended then SHIFT_FORCE else 0)
    let r := Add st.canRecvMap st.canPosMap param moddedId2 offsetBits length gain offset
    (r.1, ⟨st.canSendMap, r.2.1, r.2.2⟩)

end CanMap

namespace CanMap

/-- The in-place `mapParam` rewrite of one slot chain, shared by
`ReplaceParamEnumByUid` and `ReplaceParamUidByEnum` (canmap.cpp lines
483-505): walk the chain, replacing each visited `mapParam` by
`f mapParam`. -/
def ReplaceChain (f : ℕ → ℕ) (pool : List CANPOS) : ℕ → ℕ → List CANPOS
  | _, 0 => pool
  | idx, fuel + 1 =>
    let s := pool.getD idx defaultPos
    if s.next = ITEM_UNSET then pool
    else ReplaceChain f (pool.set idx { s with mapParam := f s.mapParam }) s.next fuel

/-- The `forEachCanMap` loop of the rewrite passes: rewrite the chain of
every entry of the active prefix. -/
def ReplaceMapChains (f : ℕ → ℕ) : List CANIDMAP → List CANPOS → List CANPOS
  | [], pool => pool
  | e :: rest, pool =>
    if e.first = MAX_ITEMS then pool
    else ReplaceMapChains f rest (ReplaceChain f pool e.first FUEL)

/-- `CanMap::ReplaceParamEnumByUid` (canmap.cpp lines 483-493):
`mapParam := GetAttrib(mapParam)->id`. -/
def ReplaceParamEnumByUid (m : List CANIDMAP) (pool : List CANPOS) : List CANPOS :=
  ReplaceMapChains (fun p => (Param.GetAttrib p).id) m pool

/-- `CanMap::ReplaceParamUidByEnum` (canmap.cpp lines 495-505):
`mapParam := NumFromId(mapParam)`. -/
def ReplaceParamUidByEnum (m : List CANIDMAP) (pool : List CANPOS) : List CANPOS :=
  ReplaceMapChains Param.NumFromId m pool

/-- The 32 inner iterations of `calculate_crc32_block` (canmap.cpp lines
35-41). -/
def crc32rounds : ℕ → ℕ → ℕ
  | crc, 0 => crc
  | crc, j + 1 =>
    crc32rounds (if crc &&& 1 = 1 then (crc >>> 1) ^^^ 0xEDB88320 else crc >>> 1) j

/-- One iteration of the outer loop of `calculate_crc32_block` (canmap.cpp
lines 32-42): `crc ^= data[i]` followed by the 32 shift rounds. -/
def crc32word (crc w : ℕ) : ℕ := crc32rounds (crc ^^^ w) 32

/-- `calculate_crc32_block` (canmap.cpp lines 29-44): word-wise reflected
CRC-32, init `0xFFFFFFFF`, polynomial `0xEDB88320`, final complement
(`~crc` under `uint32_t`). -/
def calculate_crc32_block (words : List ℕ) : ℕ :=
  (List.foldl crc32word 0xFFFFFFFF words) ^^^ 0xFFFFFFFF

/-- The `MapStorage` struct of `Save`/`LoadFromFlash` (canmap.cpp lines
509-515): the typed view of the persisted blob. -/
structure MapStorage where
  sendMap : List CANIDMAP
  recvMap : List CANIDMAP
  posMap : List CANPOS
deriving DecidableEq, Repr

/-- Modelled from the spec: the IEEE-754 single-precision bit pattern of the
stored `gain` float.  The bit-level float representation is outside the
model; this stand-in only feeds the CRC word image, and no claim depends on
the exact encoding because `Save` computes the trailing CRC from the same
word image that it writes. -/
def gainBits (g : ℚ) : ℕ :=
  (g.num.natAbs + 2 ^ 16 * g.den + (if g.num < 0 then 2 ^ 31 else 0)) % 2 ^ 32

/-- The two 32-bit words of a stored `CANIDMAP` (`{uint32_t canId;
uint16_t first; /* pad */}`, 8 bytes, spec section 6). -/
def wordsOfIdMap (e : CANIDMAP) : List ℕ :=
  [e.canId % 2 ^ 32, e.first % 2 ^ 16]

/-- The three 32-bit words of a stored `CANPOS` (`{uint16_t mapParam;
float gain; int8_t offset; uint8_t offsetBits; int8_t numBits;
uint8_t next;}`, 12 bytes with alignment padding, spec section 6). -/
def wordsOfPos (s : CANPOS) : List ℕ :=
  [s.mapParam % 2 ^ 16, gainBits s.gain,
   (s.offset % 256).toNat + ((s.offsetBits % 256) <<< 8) +
     (((s.numBits % 256).toNat % 256) <<< 16) + ((s.next % 256) <<< 24)]

/-- The word image of the whole blob body (send table, receive table, slot
pool), the input of the CRC computation. -/
def wordsOfStorage (st : MapStorage) : List ℕ :=
  (st.sendMap.map wordsOfIdMap).flatten ++ (st.recvMap.map wordsOfIdMap).flatten ++
    (st.posMap.map wordsOfPos).flatten

/-- The number of 32-bit words of the blob body for the modelled table
sizes: `2*8*MAX_MESSAGES + 12*(MAX_ITEMS+1)` bytes. -/
def storageWordCount : ℕ := 2 * MAX_MESSAGES * 2 + 3 * (MAX_ITEMS + 1)

/-- One EEPROM blob: the raw word image written by `EEPROM.put` (or read by
`EEPROM.get`), its typed view, and the trailing CRC word. -/
structure Blob where
  words : List ℕ
  storage : MapStorage
  crc : ℕ
deriving DecidableEq, Repr

/-- `CanMap::Save` (canmap.cpp lines 507-535): set `isSaving`, rewrite both
tables from parameter indices to stable ids, snapshot tables and pool with
a trailing CRC into EEPROM, then rewrite back and clear `isSaving`.
Returns the restored RAM state and the written blob. -/
def Save (st : CanMapState) : CanMapState × Blob :=
  let pool1 := ReplaceParamEnumByUid st.canSendMap st.canPosMap
  let pool2 := ReplaceParamEnumByUid st.canRecvMap pool1
  let storage : MapStorage := ⟨st.canSendMap, st.canRecvMap, pool2⟩
  let ws := wordsOfStorage storage
  let blob : Blob := ⟨ws, storage, calculate_crc32_block ws⟩
  let pool3 := ReplaceParamUidByEnum st.canSendMap pool2
  let pool4 := ReplaceParamUidByEnum st.canRecvMap pool3
  (⟨st.canSendMap, st.canRecvMap, pool4⟩, blob)

/-- `CanMap::LegacyLoadFromFlash` (canmap.cpp lines 566-570): always 0. -/
def LegacyLoadFromFlash : ℤ := 0

/-- `CanMap::LoadFromFlash` (canmap.cpp lines 537-564): read the blob,
recompute the CRC over the body words; on match install the stored tables
and rewrite stable ids back to parameter indices and return 1, otherwise
fall back to the legacy loader (which returns 0) leaving RAM untouched. -/
def LoadFromFlash (st : CanMapState) (blob : Blob) : ℤ × CanMapState :=
  if blob.crc = calculate_crc32_block blob.words then
    let pool1 := ReplaceParamUidByEnum blob.storage.sendMap blob.storage.posMap
    let pool2 := ReplaceParamUidByEnum blob.storage.recvMap pool1
    (1, ⟨blob.storage.sendMap, blob.storage.recvMap, pool2⟩)
  else
    (LegacyLoadFromFlash, st)

/-- The list of slot indices visited by a `forEachPosMap` walk (used to
state well-formedness of the tables). -/
def chainIndices (pool : List CANPOS) : ℕ → ℕ → List ℕ
  | _, 0 => []
  | idx, fuel + 1 =>
    if (pool.getD idx defaultPos).next = ITEM_UNSET then []
    else idx :: chainIndices pool (pool.getD idx defaultPos).next fuel

/-- All slot indices visited when walking the chains of the active prefix
of one id table. -/
def mapChainIndices (pool : List CANPOS) : List CANIDMAP → List ℕ
  | [] => []
  | e :: rest =>
    if e.first = MAX_ITEMS then []
    else chainIndices pool e.first FUEL ++ mapChainIndices pool rest

/-- All slot indices visited by the rewrite passes of `Save`: the chains of
the send table followed by the chains of the receive table. -/
def savedIndices (st : CanMapState) : List ℕ :=
  mapChainIndices st.canPosMap st.canSendMap ++
    mapChainIndices st.canPosMap st.canRecvMap

end CanMap

namespace oi

/-- `oi::Scaling` (pdu.h lines 17-20). -/
structure Scaling where
  factor : ℚ
  offset : ℚ
deriving DecidableEq, Repr

/-- The element kinds of the compile-time `oi::PDU` tuple (pdu.h lines
22-55): a bound field (`FieldDescriptor`, with a possibly null parameter
pointer modelled as `Option` of the parameter index), a rolling counter,
and an 8-bit CRC descriptor (with the default `computeCRC8` function). -/
inductive Element where
  | fieldE (param : Option ℕ) (startBit bitLength : ℕ) (scaling : Scaling)
  | counterE (startBit bitLength modulus : ℕ)
  | crc8E (startBit init polynomial bitLength : ℕ)
deriving DecidableEq, Repr

/-- The typed parameter stores of the bound fields, modelled as one map
from parameter index to value (`Parameter<T>::getValue`/`setValue`); the
numeric types are modelled as exact `ℚ`. -/
abbrev Params := ℕ → ℚ

/-- The `ParamDesc` range bounds (`minVal`, `maxVal`) of each registered
`Parameter<T>` object (params.h), one pair per parameter index. -/
abbrev Descs := ℕ → ℚ × ℚ

/-- Write one cell of the parameter value store. -/
def writeParam (params : Params) (idx : ℕ) (v : ℚ) : Params :=
  fun j => if j = idx then v else params j

/-- `Parameter<T>::setValue` (params.h lines 171-182) acting on the value
store: the candidate is checked by `RangeValidator<T, false>::check`
(params.h lines 257-262), `candidate >= desc.minVal && candidate <=
desc.maxVal` for the numeric types bound by the mapping; an out-of-range
candidate is rejected and the stored value left unchanged. -/
def setValue (descs : Descs) (params : Params) (idx : ℕ) (v : ℚ) : Params :=
  if (descs idx).1 ≤ v ∧ v ≤ (descs idx).2 then writeParam params idx v
  else params

/-- One iteration of the `detail::setBits` loop (pdu.h lines 73-87):
deposit bit `i` of `value` at `startBit + i`, skipping out-of-buffer
bytes. -/
def setBitsStep (buffer : List ℕ) (len startBit : ℕ) (value : ℕ) (i : ℕ) :
    List ℕ :=
  let bitIndex := startBit + i
  let byteIndex := bitIndex / 8
  if len ≤ byteIndex then buffer
  else
    let bitPos := bitIndex % 8
    let mask := 1 <<< bitPos
    if (value >>> i) &&& 1 = 1 then
      buffer.set byteIndex (buffer.getD byteIndex 0 ||| mask)
    else
      buffer.set byteIndex (buffer.getD byteIndex 0 &&& (255 ^^^ mask))

/-- `detail::setBits` (pdu.h lines 72-88): the loop over
`i = 0 .. bitLength-1` as iterated `setBitsStep`. -/
def setBits (buffer : List ℕ) (len startBit : ℕ) (bitLength value : ℕ) :
    List ℕ :=
  match bitLength with
  | 0 => buffer
  | n + 1 => setBitsStep (setBits buffer len startBit n value) len startBit value n

/-- One bit read of the `detail::getBits` loop (pdu.h lines 92-101):
`(buffer[byteIndex] >> bitPos) & 1`, 0 for out-of-buffer bytes. -/
def getBitAt (buffer : List ℕ) (len k : ℕ) : ℕ :=
  if len ≤ k / 8 then 0
  else (buffer.getD (k / 8) 0 >>> (k % 8)) &&& 1

/-- `detail::getBits` (pdu.h lines 90-103): assemble `bitLength` bits
starting at `startBit` into a value, bit `i` of the result coming from bit
`startBit + i` of the buffer. -/
def getBits (buffer : List ℕ) (len startBit : ℕ) : (bitLength : ℕ) → ℕ
  | 0 => 0
  | n + 1 => getBits buffer len startBit n ||| (getBitAt buffer len (startBit + n) <<< n)

/-- The 8 shift rounds of `detail::computeCRC8` (pdu.h lines 109-116):
MSB-first shift under `uint8_t`, XOR with the polynomial when the shifted
out bit was set. -/
def crc8Rounds (polynomial : ℕ) : ℕ → ℕ → ℕ
  | crc, 0 => crc
  | crc, b + 1 =>
    crc8Rounds polynomial
      (if crc &&& 0x80 = 0 then (crc <<< 1) % 256
       else ((crc <<< 1) % 256) ^^^ polynomial) b

/-- `detail::computeCRC8` (pdu.h lines 105-118): byte-wise XOR then 8
shift rounds, over the first `len` bytes. -/
def computeCRC8 (data : List ℕ) (len : ℕ) (init polynomial : ℕ) : ℕ :=
  List.foldl (fun crc i => crc8Rounds polynomial (crc ^^^ data.getD i 0) 8)
    init (List.range len)

/-- `detail::encodeValue` (pdu.h lines 59-64): scale, then round half away
from zero and cast (`scaled >= 0 ? scaled + 0.5 : scaled - 0.5` truncated
toward zero). -/
def encodeValue (value : ℚ) (scaling : Scaling) : ℤ :=
  let scaled := (value - scaling.offset) / scaling.factor
  CanMap.truncToInt (if 0 ≤ scaled then scaled + 1 / 2 else scaled - 1 / 2)

/-- `detail::decodeValue` (pdu.h lines 66-70): `raw * factor + offset`
(the cast to the parameter type is the identity in the `ℚ` model). -/
def decodeValue (raw : ℤ) (scaling : Scaling) : ℚ :=
  (raw : ℚ) * scaling.factor + scaling.offset

/-- The C cast `static_cast<uint64_t>` of a signed 64-bit value. -/
def u64ofInt (x : ℤ) : ℕ := (x % 2 ^ 64).toNat

/-- The C cast `static_cast<int64_t>` of an unsigned 64-bit value. -/
def toInt64 (x : ℕ) : ℤ := if x < 2 ^ 63 then (x : ℤ) else (x : ℤ) - 2 ^ 64

/-- The state of one `oi::PDU` object: the construction-time CAN id and
element tuple, and the mutable transmit and receive counters. -/
structure PDU where
  canId : ℕ
  elements : List Element
  counterValue : ℕ
  rxCounter : ℕ
deriving DecidableEq, Repr

/-- The `crcDesc` selection of `applyCRC`/`validateCRC` (pdu.h lines
202-209 and 226-232): `forEachInTuple` overwrites the pointer, so the LAST
CRC8 element of the tuple wins. -/
def findLastCRC : List Element → Option (ℕ × ℕ × ℕ × ℕ)
  | [] => none
  | e :: rest =>
    match findLastCRC rest with
    | some c => some c
    | none =>
      match e with
      | .crc8E sb init poly bl => some (sb, init, poly, bl)
      | _ => none

/-- The 8-byte zero-initialised `temp` copy of `applyCRC`/`validateCRC`
(pdu.h lines 215-218 and 238-241). -/
def copyTemp (buffer : List ℕ) (len : ℕ) : List ℕ :=
  (List.range 8).map (fun i => if i < len then buffer.getD i 0 else 0)

/-- `oi::PDU::applyCRC` (pdu.h lines 202-223): zero the CRC range in a
temp copy, compute the CRC over `len` bytes, deposit it in the real
buffer.  No-op when the tuple has no CRC8 element. -/
def applyCRC (elements : List Element) (buffer : List ℕ) (len : ℕ) : List ℕ :=
  match findLastCRC elements with
  | none => buffer
  | some (sb, init, poly, bl) =>
    let temp := setBits (copyTemp buffer len) len sb bl 0
    let crc := computeCRC8 temp len init poly
    setBits buffer len sb bl crc

/-- `oi::PDU::validateCRC` (pdu.h lines 225-247): recompute the CRC over
the buffer with the CRC range zeroed and compare with the received bits;
vacuously true without a CRC8 element. -/
def validateCRC (elements : List Element) (buffer : List ℕ) (len : ℕ) : Bool :=
  match findLastCRC elements with
  | none => true
  | some (sb, init, poly, bl) =>
    let temp := setBits (copyTemp buffer len) len sb bl 0
    let computed := computeCRC8 temp len init poly
    let received := getBits buffer len sb bl
    computed = received

/-- The per-element body of the `pack` fold (pdu.h lines 149-166), carrying
the buffer and the advancing counter. -/
def packFold (params : Params) (len : ℕ) (acc : List ℕ × ℕ) (e : Element) :
    List ℕ × ℕ :=
  match e with
  | .counterE sb bl modulus =>
    let nc := if 0 < modulus then (acc.2 + 1) % modulus else acc.2
    (setBits acc.1 len sb bl nc, nc)
  | .crc8E _ _ _ _ => acc
  | .fieldE p sb bl scaling =>
    match p with
    | none => acc
    | some idx =>
      (setBits acc.1 len sb bl (u64ofInt (encodeValue (params idx) scaling)), acc.2)

/-- `oi::PDU::pack` (pdu.h lines 140-170): zero the buffer, deposit every
field and the advanced counter, then apply the CRC; returns the buffer and
the updated object.  A null buffer or `len = 0` packs nothing. -/
def pack (pdu : PDU) (params : Params) (len : ℕ) : List ℕ × PDU :=
  if len = 0 then ([], pdu)
  else
    let r := pdu.elements.foldl (packFold params len) (List.replicate len 0, pdu.counterValue)
    (applyCRC pdu.elements r.1 len, { pdu with counterValue := r.2 })

/-- The per-element body of the `unpack` fold (pdu.h lines 178-193),
carrying the parameter store and the received counter; each bound field's
decoded value is written through the range-validated
`Parameter<T>::setValue`. -/
def unpackFold (descs : Descs) (buffer : List ℕ) (len : ℕ) (acc : Params × ℕ)
    (e : Element) : Params × ℕ :=
  match e with
  | .counterE sb bl _ => (acc.1, (getBits buffer len sb bl) % 2 ^ 32)
  | .crc8E _ _ _ _ => acc
  | .fieldE p sb bl scaling =>
    match p with
    | none => acc
    | some idx =>
      (setValue descs acc.1 idx (decodeValue (toInt64 (getBits buffer len sb bl)) scaling),
        acc.2)

/-- `oi::PDU::unpack` (pdu.h lines 172-196): validate the CRC, then run
the decode fold over every element regardless of the verdict — each bound
field through the range-validated `setValue`, the received counter stored
unconditionally; returns the CRC verdict with the updated stores.  A null
buffer or `len = 0` fails without reading. -/
def unpack (pdu : PDU) (descs : Descs) (params : Params) (buffer : List ℕ)
    (len : ℕ) : Bool × Params × PDU :=
  if len = 0 then (false, params, pdu)
  else
    let crcOk := validateCRC pdu.elements buffer len
    let r := pdu.elements.foldl (unpackFold descs buffer len) (params, pdu.rxCounter)
    (crcOk, r.1, { pdu with rxCounter := r.2 })

end oi

namespace oi

/-- Proof-side view of one payload bit. -/
def bitAtB (buf : List ℕ) (k : ℕ) : Bool := (buf.getD (k / 8) 0).testBit (k % 8)

end oi

section RoundTripLemmas

/-- A value shifted into a 32-bit word and shifted back out, then masked,
is recovered whenever the field fits in the word. -/
lemma shift_mod_shift_mask (v k n : ℕ) (hv : v < 2 ^ n) (hkn : k + n ≤ 32) :
    (((v <<< k) % 2 ^ 32) >>> k) &&& (2 ^ n - 1) = v := by
  apply Nat.eq_of_testBit_eq
  intro i
  simp only [Nat.testBit_and, Nat.testBit_two_pow_sub_one, Nat.testBit_shiftRight,
    Nat.testBit_mod_two_pow, Nat.testBit_shiftLeft]
  by_cases hi : i < n
  · have h32 : k + i < 32 := by omega
    have hk : k ≤ k + i := by omega
    simp [hi, h32, hk, Nat.add_sub_cancel_left]
  · have : v < 2 ^ i := lt_of_lt_of_le hv (Nat.pow_le_pow_right (by norm_num) (by omega))
    simp [hi, Nat.testBit_lt_two_pow this]

/-- Straddle case round trip: the low `32 - p` bits come back from `d0`,
the high bits from `d1`. -/
lemma straddle_shift_mask (v p n : ℕ) (hv : v < 2 ^ n) (hn : n ≤ 32)
    (hp : p ≤ 31) (_hpn : 32 < p + n) :
    ((((v <<< p) % 2 ^ 32) >>> p) |||
      (((v >>> (32 - p)) <<< (32 - p)) % 2 ^ 32)) &&& (2 ^ n - 1) = v := by
  apply Nat.eq_of_testBit_eq
  intro i
  simp only [Nat.testBit_and, Nat.testBit_two_pow_sub_one, Nat.testBit_or,
    Nat.testBit_shiftRight, Nat.testBit_mod_two_pow, Nat.testBit_shiftLeft]
  by_cases hi : i < n
  · by_cases hlow : p + i < 32
    · have h1 : ¬(32 - p ≤ i) := by omega
      simp [hi, hlow, h1, Nat.add_sub_cancel_left, Nat.le_add_right]
    · have h1 : 32 - p ≤ i := by omega
      have h2 : i < 32 := by omega
      have h3 : ¬(p + i < 32) := by omega
      have h4 : 32 - p + (i - (32 - p)) = i := by omega
      simp [hi, h3, h1, h2, h4, Nat.add_sub_cancel_left]
  · have : v < 2 ^ i := lt_of_lt_of_le hv (Nat.pow_le_pow_right (by norm_num) (by omega))
    simp [hi, Nat.testBit_lt_two_pow this]

end RoundTripLemmas

section C1

open CanMap

/-- The `SendAll` value pipeline at `gain = 1`, `offset = 0` on an `n`-bit
natural value is the identity. -/
lemma sendAllIval_id (p : ℕ) (nb : ℤ) (v n : ℕ) (hnb : nb.natAbs = n)
    (hv : v < 2 ^ n) (hn : n ≤ 32) :
    SendAllIval ⟨0, 1, 0, p, nb, 0⟩ (v : ℚ) = v := by
  have hscaled : SendAllScaled ⟨0, 1, 0, p, nb, 0⟩ (v : ℚ) = (v : ℚ) := by
    simp [SendAllScaled]
  have htrunc : truncToInt ((v : ℚ)) = (v : ℤ) := by
    simp [truncToInt, Int.floor_natCast]
  have hv32 : v < 2 ^ 32 := lt_of_lt_of_le hv (Nat.pow_le_pow_right (by norm_num) hn)
  have hu : u32ofInt (v : ℤ) = v := by
    simp only [u32ofInt]
    rw [Int.emod_eq_of_lt (by positivity) (by exact_mod_cast hv32)]
    simp
  simp only [SendAllIval, hscaled, htrunc, hu, hnb, fieldMask,
    Nat.and_pow_two_sub_one_eq_mod]
  exact Nat.mod_eq_of_lt hv

/-- C1: for every little-endian slot `(p, n)` with `1 ≤ n ≤ 32` and
`p + n ≤ 64`, and every `n`-bit value `v` (gain 1, offset 0, unsigned),
depositing `v` into a zeroed 8-byte payload with the `SendAll` encoder and
extracting at the same position with the `HandleRx` decoder yields `v`. -/
theorem le_encode_decode_id (p n v : ℕ) (h1 : 1 ≤ n) (h2 : n ≤ 32)
    (h3 : p + n ≤ 64) (hv : v < 2 ^ n) :
    HandleRxRaw ⟨0, 1, 0, p, (n : ℤ), 0⟩
      (SendAllDeposit ⟨0, 1, 0, p, (n : ℤ), 0⟩
        (SendAllIval ⟨0, 1, 0, p, (n : ℤ), 0⟩ (v : ℚ)) (0, 0)).1
      (SendAllDeposit ⟨0, 1, 0, p, (n : ℤ), 0⟩
        (SendAllIval ⟨0, 1, 0, p, (n : ℤ), 0⟩ (v : ℚ)) (0, 0)).2 = v := by
  rw [sendAllIval_id p (n : ℤ) v n (by simp) hv h2]
  have hnbpos : ¬((n : ℤ) < 0) := by omega
  by_cases hA : p > 31
  · -- field entirely inside d1
    have hc : ¬((p : ℤ) + (n : ℤ) ≤ 32) := by omega
    simp only [SendAllDeposit, HandleRxRaw, hnbpos, if_false, hA, if_true, if_pos,
      Int.natAbs_ofNat, Nat.zero_or]
    have := shift_mod_shift_mask v (p - 32) n hv (by omega)
    simpa [fieldMask] using this
  · by_cases hB : p + n ≤ 32
    · -- field entirely inside d0
      have hc : (p : ℤ) + (n : ℤ) ≤ 32 := by omega
      simp only [SendAllDeposit, HandleRxRaw, hnbpos, if_false, hA, hc, if_true,
        Int.natAbs_ofNat, Nat.zero_or]
      have := shift_mod_shift_mask v p n hv (by omega)
      simpa [fieldMask] using this
    · -- straddle
      have hc : ¬((p : ℤ) + (n : ℤ) ≤ 32) := by omega
      simp only [SendAllDeposit, HandleRxRaw, hnbpos, if_false, hA, hc, if_true,
        Int.natAbs_ofNat, Nat.zero_or]
      have := straddle_shift_mask v p n hv h2 (by omega) (by omega)
      simpa [fieldMask] using this

/-- Witness for C1 at the straddling slot `p = 28, n = 8` and value 171. -/
theorem le_encode_decode_id_witness :
    (1 ≤ 8 ∧ 8 ≤ 32 ∧ 28 + 8 ≤ 64 ∧ 171 < 2 ^ 8) ∧
    HandleRxRaw ⟨0, 1, 0, 28, ((8 : ℕ) : ℤ), 0⟩
      (SendAllDeposit ⟨0, 1, 0, 28, ((8 : ℕ) : ℤ), 0⟩
        (SendAllIval ⟨0, 1, 0, 28, ((8 : ℕ) : ℤ), 0⟩ ((171 : ℕ) : ℚ)) (0, 0)).1
      (SendAllDeposit ⟨0, 1, 0, 28, ((8 : ℕ) : ℤ), 0⟩
        (SendAllIval ⟨0, 1, 0, 28, ((8 : ℕ) : ℤ), 0⟩ ((171 : ℕ) : ℚ)) (0, 0)).2 = 171 :=
  ⟨by decide, le_encode_decode_id 28 8 171 (by decide) (by decide) (by decide) (by decide)⟩

end C1

/-- C2: the raw bit extraction of `HandleRx` reproduces the literal section 8
boundary table: the little-endian straddle slot `p = 28, n = 8` on payload
`d0 = 0xF0000000, d1 = 0x0000000F` decodes to `0xFF = 255`, and the
big-endian J1939 slot `p = 7, n = -8` on payload bytes
`B0..B7 = {0xA5, 0, ..., 0}` decodes to `0xA5 = 165`. -/
theorem handleRx_boundary_table :
    CanMap.HandleRxRaw ⟨0, 1, 0, 28, 8, CanMap.MAX_ITEMS⟩ 0xF0000000 0x0000000F = 255 ∧
    CanMap.HandleRxRaw ⟨0, 1, 0, 7, -8, CanMap.MAX_ITEMS⟩ 0xA5 0 = 165 := by
  decide

/-- C3: the receive decode computes `(raw + offset) * gain` (offset before
gain) and writes exactly that value for spot-value parameters, while the
transmit encode computes `value * gain + offset` (gain before offset); the
two associations genuinely differ. -/
theorem scaling_asymmetry :
    (∀ (s : CanMap.CANPOS) (d0 d1 : ℕ), CanMap.HandleRxVal s d0 d1 =
        ((CanMap.HandleRxRaw s d0 d1 : ℚ) + (s.offset : ℚ)) * s.gain) ∧
    (∀ (s : CanMap.CANPOS) (d0 d1 : ℕ) (vals : Param.Values),
        Param.GetType s.mapParam = Param.TYPE_SPOTVALUE →
        CanMap.HandleRxWriteSlot s d0 d1 vals s.mapParam =
          ((CanMap.HandleRxRaw s d0 d1 : ℚ) + (s.offset : ℚ)) * s.gain) ∧
    (∀ (s : CanMap.CANPOS) (v : ℚ),
        CanMap.SendAllScaled s v = v * s.gain + (s.offset : ℚ)) ∧
    (∃ (s : CanMap.CANPOS) (x : ℚ),
        CanMap.SendAllScaled s x ≠ (x + (s.offset : ℚ)) * s.gain) := by
  refine ⟨fun s d0 d1 => rfl, ?_, fun s v => rfl, ⟨⟨0, 2, 1, 0, 8, 0⟩, 0, ?_⟩⟩
  · intro s d0 d1 vals h
    simp [CanMap.HandleRxWriteSlot, h, Param.SetFloat, Param.writeValue,
      CanMap.HandleRxVal]
  · norm_num [CanMap.SendAllScaled]

/-- Witness for C3 at a concrete spot-value slot. -/
theorem scaling_asymmetry_witness :
    Param.GetType 2 = Param.TYPE_SPOTVALUE ∧
    CanMap.HandleRxWriteSlot ⟨2, 1, 0, 0, 8, 50⟩ 0x2A 0 (fun _ => 0) 2 =
      ((CanMap.HandleRxRaw ⟨2, 1, 0, 0, 8, 50⟩ 0x2A 0 : ℚ) + ((0 : ℤ) : ℚ)) * (1 : ℚ) :=
  ⟨by decide, scaling_asymmetry.2.1 ⟨2, 1, 0, 0, 8, 50⟩ 0x2A 0 (fun _ => 0) (by decide)⟩

/-- C5: for a tunable or test parameter, `Param::Set` converts the fixed
point input to `v = f / 32`; inside `[min, max]` it stores `v`, invokes the
`Change` callback and returns 0, otherwise it returns -1, keeps the stored
value and does not invoke the callback. -/
theorem param_set_range_check (vals : Param.Values) (num : ℕ) (f : ℤ)
    (_htype : Param.GetType num = Param.TYPE_PARAM ∨
      Param.GetType num = Param.TYPE_TESTPARAM) :
    (((Param.GetAttrib num).min ≤ Param.FP_TOFLOAT f ∧
        Param.FP_TOFLOAT f ≤ (Param.GetAttrib num).max) →
      Param.Set vals num f =
        (0, Param.writeValue vals num (Param.FP_TOFLOAT f), true)) ∧
    (¬ ((Param.GetAttrib num).min ≤ Param.FP_TOFLOAT f ∧
        Param.FP_TOFLOAT f ≤ (Param.GetAttrib num).max) →
      Param.Set vals num f = (-1, vals, false)) := by
  constructor <;> intro h <;> simp [Param.Set, h]

namespace CanMap

lemma addAlloc_code_cases (m : List CANIDMAP) (pool : List CANPOS)
    (param canId offsetBits : ℕ) (length : ℤ) (gain : ℚ) (offset : ℤ) :
    (AddAlloc m pool param canId offsetBits length gain offset).1 = CAN_ERR_MAXMESSAGES ∨
    (AddAlloc m pool param canId offsetBits length gain offset).1 = CAN_ERR_MAXITEMS ∨
    0 ≤ (AddAlloc m pool param canId offsetBits length gain offset).1 := by
  simp only [AddAlloc]
  split
  · exact Or.inl rfl
  · split
    · exact Or.inr (Or.inl rfl)
    · split
      · exact Or.inr (Or.inr (Int.natCast_nonneg _))
      · exact Or.inr (Or.inr (Int.natCast_nonneg _))

lemma addAlloc_capacity (m : List CANIDMAP) (pool : List CANPOS)
    (param canId offsetBits : ℕ) (length : ℤ) (gain : ℚ) (offset : ℤ)
    (hentry : (FindByIdIdx m canId).isSome ∨
      ((List.range MAX_MESSAGES).find?
        (fun i => (m.getD i defaultIdMap).first = MAX_ITEMS)).isSome)
    (hslot : ((List.range MAX_ITEMS).find?
      (fun j => (pool.getD j defaultPos).next = ITEM_UNSET)).isSome) :
    0 ≤ (AddAlloc m pool param canId offsetBits length gain offset).1 := by
  obtain ⟨j, hj⟩ := Option.isSome_iff_exists.mp hslot
  rcases hf : FindByIdIdx m canId with _ | i
  · rw [hf] at hentry
    replace hentry := hentry.resolve_left (by simp)
    obtain ⟨i, hi⟩ := Option.isSome_iff_exists.mp hentry
    simp only [AddAlloc, hf, hi, hj]
    split <;> exact Int.natCast_nonneg _
  · simp only [AddAlloc, hf, hj]
    split <;> exact Int.natCast_nonneg _

lemma add_code_iff (m : List CANIDMAP) (pool : List CANPOS)
    (param canId offsetBits : ℕ) (length : ℤ) (gain : ℚ) (offset : ℤ) :
    ((Add m pool param canId offsetBits length gain offset).1 = CAN_ERR_INVALID_LEN ↔
      (length = 0 ∨ 32 < length.natAbs)) ∧
    ((Add m pool param canId offsetBits length gain offset).1 = CAN_ERR_INVALID_OFS ↔
      (¬(length = 0 ∨ 32 < length.natAbs) ∧
        ((0 < length ∧ 63 < (offsetBits : ℤ) + length - 1) ∨
          (length < 0 ∧ (63 < offsetBits ∨ int8OfByte offsetBits + length + 1 < 0))))) ∧
    (Add m pool param canId offsetBits length gain offset).1 ≠ CAN_ERR_INVALID_ID := by
  by_cases g1 : length = 0 ∨ 32 < length.natAbs
  · simp only [Add, if_pos g1]
    exact ⟨by simp [g1], iff_of_false (by decide) (fun h => h.1 g1), by decide⟩
  · by_cases g2 : 0 < length ∧ 63 < (offsetBits : ℤ) + length - 1
    · simp only [Add, if_neg g1, if_pos g2]
      exact ⟨iff_of_false (by decide) g1, by simp [g1, g2.1, g2.2], by decide⟩
    · by_cases g3 : length < 0 ∧ 63 < offsetBits
      · simp only [Add, if_neg g1, if_neg g2, if_pos g3]
        exact ⟨iff_of_false (by decide) g1, by simp [g1, g3.1, g3.2], by decide⟩
      · by_cases g4 : length < 0 ∧ int8OfByte offsetBits + length + 1 < 0
        · simp only [Add, if_neg g1, if_neg g2, if_neg g3, if_pos g4]
          exact ⟨iff_of_false (by decide) g1, by simp [g1, g4.1, g4.2], by decide⟩
        · have hofs : ¬((0 < length ∧ 63 < (offsetBits : ℤ) + length - 1) ∨
              (length < 0 ∧ (63 < offsetBits ∨ int8OfByte offsetBits + length + 1 < 0))) := by
            rintro (h | ⟨hneg, h | h⟩)
            · exact g2 h
            · exact g3 ⟨hneg, h⟩
            · exact g4 ⟨hneg, h⟩
          simp only [Add, if_neg g1, if_neg g2, if_neg g3, if_neg g4]
          rcases addAlloc_code_cases m pool param canId offsetBits length gain offset with
            h | h | h
          · rw [h]
            exact ⟨iff_of_false (by decide) g1,
              iff_of_false (by decide) (fun hh => hofs hh.2), by decide⟩
          · rw [h]
            exact ⟨iff_of_false (by decide) g1,
              iff_of_false (by decide) (fun hh => hofs hh.2), by decide⟩
          · refine ⟨iff_of_false ?_ g1, iff_of_false ?_ (fun hh => hofs hh.2), ?_⟩
            · intro he
              rw [he] at h
              exact absurd h (by decide)
            · intro he
              rw [he] at h
              exact absurd h (by decide)
            · intro he
              rw [he] at h
              exact absurd h (by decide)

end CanMap

/-- C4 (amended): `AddRecv` reports `CAN_ERR_INVALID_ID` exactly when the
CAN id with the force-extended flag masked off exceeds `MAX_COB_ID`, but
`AddSend` compares the raw id (it does not mask the flag); past the id
check, both report `CAN_ERR_INVALID_LEN` exactly when the length is 0 or
its magnitude exceeds 32, then `CAN_ERR_INVALID_OFS` exactly when the
little-endian field would pass bit 63 or the big-endian position exceeds 63
or the field would walk below bit 0; past all checks, if an id entry and a
free pool slot are available the result is non-negative. -/
theorem add_error_code_chain (st : CanMap.CanMapState) (param canId offsetBits : ℕ)
    (length : ℤ) (gain : ℚ) (offset : ℤ) :
    ((CanMap.AddSend st param canId offsetBits length gain offset).1 =
        CanMap.CAN_ERR_INVALID_ID ↔ CanMap.MAX_COB_ID < canId) ∧
    ((CanMap.AddRecv st param canId offsetBits length gain offset).1 =
        CanMap.CAN_ERR_INVALID_ID ↔
      CanMap.MAX_COB_ID < canId &&& (2 ^ 32 - 1 - CanMap.CAN_FORCE_EXTENDED)) ∧
    (∀ (m : List CanMap.CANIDMAP) (pool : List CanMap.CANPOS),
      ((CanMap.Add m pool param canId offsetBits length gain offset).1 =
          CanMap.CAN_ERR_INVALID_LEN ↔ (length = 0 ∨ 32 < length.natAbs))) ∧
    (∀ (m : List CanMap.CANIDMAP) (pool : List CanMap.CANPOS),
      ((CanMap.Add m pool param canId offsetBits length gain offset).1 =
          CanMap.CAN_ERR_INVALID_OFS ↔
        (¬(length = 0 ∨ 32 < length.natAbs) ∧
          ((0 < length ∧ 63 < (offsetBits : ℤ) + length - 1) ∨
            (length < 0 ∧ (63 < offsetBits ∨
              CanMap.int8OfByte offsetBits + length + 1 < 0)))))) ∧
    (∀ (m : List CanMap.CANIDMAP) (pool : List CanMap.CANPOS),
      ¬(length = 0 ∨ 32 < length.natAbs) →
      ¬((0 < length ∧ 63 < (offsetBits : ℤ) + length - 1) ∨
        (length < 0 ∧ (63 < offsetBits ∨
          CanMap.int8OfByte offsetBits + length + 1 < 0))) →
      ((CanMap.FindByIdIdx m canId).isSome ∨
        ((List.range CanMap.MAX_MESSAGES).find?
          (fun i => (m.getD i CanMap.defaultIdMap).first = CanMap.MAX_ITEMS)).isSome) →
      ((List.range CanMap.MAX_ITEMS).find?
        (fun j => (pool.getD j CanMap.defaultPos).next = CanMap.ITEM_UNSET)).isSome →
      0 ≤ (CanMap.Add m pool param canId offsetBits length gain offset).1) := by
  refine ⟨?_, ?_, fun m pool => (CanMap.add_code_iff m pool param canId offsetBits length gain offset).1,
    fun m pool => (CanMap.add_code_iff m pool param canId offsetBits length gain offset).2.1,
    ?_⟩
  · simp only [CanMap.AddSend]
    split_ifs with h
    · simp [h]
    · exact iff_of_false (CanMap.add_code_iff _ _ _ _ _ _ _ _).2.2 h
  · simp only [CanMap.AddRecv]
    split_ifs with h
    · exact iff_of_true rfl h
    · exact iff_of_false (CanMap.add_code_iff _ _ _ _ _ _ _ _).2.2 h
    · exact iff_of_false (CanMap.add_code_iff _ _ _ _ _ _ _ _).2.2 h
  · intro m pool h1 h2 h3 h4
    have hofs2 : ¬(0 < length ∧ 63 < (offsetBits : ℤ) + length - 1) := fun h => h2 (Or.inl h)
    have hofs3 : ¬(length < 0 ∧ 63 < offsetBits) :=
      fun h => h2 (Or.inr ⟨h.1, Or.inl h.2⟩)
    have hofs4 : ¬(length < 0 ∧ CanMap.int8OfByte offsetBits + length + 1 < 0) :=
      fun h => h2 (Or.inr ⟨h.1, Or.inr h.2⟩)
    simp only [CanMap.Add, if_neg h1, if_neg hofs2, if_neg hofs3, if_neg hofs4]
    exact CanMap.addAlloc_capacity m pool param canId offsetBits length gain offset h3 h4

/-- Counterexample to C4 as stated: `AddSend` with the force-extended flag
set on a small id returns `CAN_ERR_INVALID_ID` although the id with the
flag masked off does not exceed `MAX_COB_ID`. -/
theorem addSend_id_mask_counterexample :
    (CanMap.AddSend CanMap.initialState 0 0x20000001 0 8 1 0).1 =
      CanMap.CAN_ERR_INVALID_ID ∧
    0x20000001 &&& (2 ^ 32 - 1 - CanMap.CAN_FORCE_EXTENDED) ≤ CanMap.MAX_COB_ID := by
  constructor
  · rw [CanMap.AddSend, if_pos (by decide)]
  · decide

/-- Witness for C4 (amended) applying the capacity clause at an empty
table. -/
theorem add_error_code_chain_witness :
    (¬((8 : ℤ) = 0 ∨ 32 < (8 : ℤ).natAbs)) ∧
    (¬((0 < (8 : ℤ) ∧ 63 < ((0 : ℕ) : ℤ) + 8 - 1) ∨
      ((8 : ℤ) < 0 ∧ (63 < (0 : ℕ) ∨ CanMap.int8OfByte 0 + 8 + 1 < 0)))) ∧
    ((CanMap.FindByIdIdx CanMap.initialState.canSendMap 0x100).isSome ∨
      ((List.range CanMap.MAX_MESSAGES).find?
        (fun i => (CanMap.initialState.canSendMap.getD i CanMap.defaultIdMap).first =
          CanMap.MAX_ITEMS)).isSome) ∧
    ((List.range CanMap.MAX_ITEMS).find?
      (fun j => (CanMap.initialState.canPosMap.getD j CanMap.defaultPos).next =
        CanMap.ITEM_UNSET)).isSome ∧
    0 ≤ (CanMap.Add CanMap.initialState.canSendMap CanMap.initialState.canPosMap
      0 0x100 0 8 1 0).1 :=
  ⟨by decide, by decide, by decide, by decide,
    (add_error_code_chain CanMap.initialState 0 0x100 0 8 1 0).2.2.2.2
      CanMap.initialState.canSendMap CanMap.initialState.canPosMap
      (by decide) (by decide) (by decide) (by decide)⟩

namespace CanMap

lemma sendChainData_saving (pool : List CANPOS) (vals : Param.Values) (d : ℕ × ℕ)
    (idx fuel : ℕ) (h : (pool.getD idx defaultPos).next ≠ ITEM_UNSET) :
    SendChainData true pool vals d idx (fuel + 1) = none := by
  have h2 : ¬(pool[idx]?.getD defaultPos).next = ITEM_UNSET := by simpa using h
  simp [SendChainData, h2]

end CanMap

/-- C6: with `isSaving` set at the start of the call, `HandleRx` returns
without writing any parameter and `SendAll` emits no frame (given the
well-formedness fact that a non-empty head entry of the send table starts
with a live slot); neither operation touches the tables. -/
theorem saving_skips (st : CanMap.CanMapState) (vals : Param.Values) (canId d0 d1 : ℕ)
    (hhead : (st.canSendMap.getD 0 CanMap.defaultIdMap).first = CanMap.MAX_ITEMS ∨
      (st.canPosMap.getD (st.canSendMap.getD 0 CanMap.defaultIdMap).first
        CanMap.defaultPos).next ≠ CanMap.ITEM_UNSET) :
    CanMap.HandleRx true st vals canId d0 d1 = vals ∧
    CanMap.SendAll true st vals = [] := by
  refine ⟨by simp [CanMap.HandleRx], ?_⟩
  rcases hm : st.canSendMap with _ | ⟨e, rest⟩
  · simp [CanMap.SendAll, hm, CanMap.SendAllFrames]
  · rw [hm] at hhead
    simp only [List.getD_cons_zero] at hhead
    by_cases hf : e.first = CanMap.MAX_ITEMS
    · simp [CanMap.SendAll, hm, CanMap.SendAllFrames, hf]
    · have hlive : (st.canPosMap.getD e.first CanMap.defaultPos).next ≠
          CanMap.ITEM_UNSET := hhead.resolve_left hf
      simp only [CanMap.SendAll, hm, CanMap.SendAllFrames, if_neg hf]
      rw [show CanMap.FUEL = CanMap.MAX_ITEMS + 1 from rfl,
        CanMap.sendChainData_saving st.canPosMap vals (0, 0) e.first CanMap.MAX_ITEMS hlive]

/-- Witness for C6 at a one-entry send table whose chain head is live. -/
theorem saving_skips_witness :
    ((((⟨0x100, 0⟩ : CanMap.CANIDMAP) :: List.replicate 9 CanMap.defaultIdMap).getD 0
        CanMap.defaultIdMap).first = CanMap.MAX_ITEMS ∨
      (((⟨0, 1, 0, 0, 8, CanMap.MAX_ITEMS⟩ : CanMap.CANPOS) ::
          List.replicate 50 CanMap.defaultPos).getD
        ((((⟨0x100, 0⟩ : CanMap.CANIDMAP) :: List.replicate 9 CanMap.defaultIdMap).getD 0
          CanMap.defaultIdMap).first) CanMap.defaultPos).next ≠ CanMap.ITEM_UNSET) ∧
    (CanMap.HandleRx true
      ⟨(⟨0x100, 0⟩ : CanMap.CANIDMAP) :: List.replicate 9 CanMap.defaultIdMap,
        List.replicate 10 CanMap.defaultIdMap,
        (⟨0, 1, 0, 0, 8, CanMap.MAX_ITEMS⟩ : CanMap.CANPOS) ::
          List.replicate 50 CanMap.defaultPos⟩
      (fun _ => 0) 0x100 1 2 = (fun _ => 0) ∧
    CanMap.SendAll true
      ⟨(⟨0x100, 0⟩ : CanMap.CANIDMAP) :: List.replicate 9 CanMap.defaultIdMap,
        List.replicate 10 CanMap.defaultIdMap,
        (⟨0, 1, 0, 0, 8, CanMap.MAX_ITEMS⟩ : CanMap.CANPOS) ::
          List.replicate 50 CanMap.defaultPos⟩
      (fun _ => 0) = []) :=
  ⟨by decide,
    saving_skips
      ⟨(⟨0x100, 0⟩ : CanMap.CANIDMAP) :: List.replicate 9 CanMap.defaultIdMap,
        List.replicate 10 CanMap.defaultIdMap,
        (⟨0, 1, 0, 0, 8, CanMap.MAX_ITEMS⟩ : CanMap.CANPOS) ::
          List.replicate 50 CanMap.defaultPos⟩
      (fun _ => 0) 0x100 1 2 (by decide)⟩

/-- C8: a persistence load whose recomputed CRC-32 does not match the
trailing CRC word returns the no-valid-blob code 0 (not the success code 1)
and leaves the RAM state untouched; in particular this holds for a fresh
all-0xFF EEPROM, whose body words are all `0xFFFFFFFF` and whose trailing
word `0xFFFFFFFF` differs from the recomputed CRC. -/
theorem load_crc_mismatch :
    (∀ (st : CanMap.CanMapState) (blob : CanMap.Blob),
      CanMap.calculate_crc32_block blob.words ≠ blob.crc →
      CanMap.LoadFromFlash st blob = (0, st)) ∧
    (∀ (st : CanMap.CanMapState) (parsed : CanMap.MapStorage),
      CanMap.LoadFromFlash st
        ⟨List.replicate CanMap.storageWordCount (2 ^ 32 - 1), parsed, 2 ^ 32 - 1⟩ =
      (0, st)) := by
  have key : ∀ (st : CanMap.CanMapState) (blob : CanMap.Blob),
      CanMap.calculate_crc32_block blob.words ≠ blob.crc →
      CanMap.LoadFromFlash st blob = (0, st) := by
    intro st blob h
    rw [CanMap.LoadFromFlash, if_neg (fun hh => h hh.symm)]
    rfl
  refine ⟨key, fun st parsed => key st _ ?_⟩
  show CanMap.calculate_crc32_block
      (List.replicate CanMap.storageWordCount (2 ^ 32 - 1)) ≠ 2 ^ 32 - 1
  have hrep : List.replicate CanMap.storageWordCount ((2 : ℕ) ^ 32 - 1) =
      List.replicate 8 (0xFFFFFFFF : ℕ) ++ (List.replicate 8 (0xFFFFFFFF : ℕ) ++ (List.replicate 8 (0xFFFFFFFF : ℕ) ++ (List.replicate 8 (0xFFFFFFFF : ℕ) ++ (List.replicate 8 (0xFFFFFFFF : ℕ) ++ (List.replicate 8 (0xFFFFFFFF : ℕ) ++ (List.replicate 8 (0xFFFFFFFF : ℕ) ++ (List.replicate 8 (0xFFFFFFFF : ℕ) ++ (List.replicate 8 (0xFFFFFFFF : ℕ) ++ (List.replicate 8 (0xFFFFFFFF : ℕ) ++ (List.replicate 8 (0xFFFFFFFF : ℕ) ++ (List.replicate 8 (0xFFFFFFFF : ℕ) ++ (List.replicate 8 (0xFFFFFFFF : ℕ) ++ (List.replicate 8 (0xFFFFFFFF : ℕ) ++ (List.replicate 8 (0xFFFFFFFF : ℕ) ++ (List.replicate 8 (0xFFFFFFFF : ℕ) ++ (List.replicate 8 (0xFFFFFFFF : ℕ) ++ (List.replicate 8 (0xFFFFFFFF : ℕ) ++ (List.replicate 8 (0xFFFFFFFF : ℕ) ++ (List.replicate 8 (0xFFFFFFFF : ℕ) ++ (List.replicate 8 (0xFFFFFFFF : ℕ) ++ (List.replicate 8 (0xFFFFFFFF : ℕ) ++ (List.replicate 8 (0xFFFFFFFF : ℕ) ++ (List.replicate 8 (0xFFFFFFFF : ℕ) ++ (List.replicate 1 (0xFFFFFFFF : ℕ))))))))))))))))))))))))) := by decide
  have e0 : List.foldl CanMap.crc32word 0xFFFFFFFF (List.replicate 8 0xFFFFFFFF) = 0x9354f4 := by decide
  have e1 : List.foldl CanMap.crc32word 0x9354f4 (List.replicate 8 0xFFFFFFFF) = 0xf09e7845 := by decide
  have e2 : List.foldl CanMap.crc32word 0xf09e7845 (List.replicate 8 0xFFFFFFFF) = 0xb926e32f := by decide
  have e3 : List.foldl CanMap.crc32word 0xb926e32f (List.replicate 8 0xFFFFFFFF) = 0x9ad2abb3 := by decide
  have e4 : List.foldl CanMap.crc32word 0x9ad2abb3 (List.replicate 8 0xFFFFFFFF) = 0xbde447fc := by decide
  have e5 : List.foldl CanMap.crc32word 0xbde447fc (List.replicate 8 0xFFFFFFFF) = 0xf5f471b2 := by decide
  have e6 : List.foldl CanMap.crc32word 0xf5f471b2 (List.replicate 8 0xFFFFFFFF) = 0x4de9cd9d := by decide
  have e7 : List.foldl CanMap.crc32word 0x4de9cd9d (List.replicate 8 0xFFFFFFFF) = 0x15757de := by decide
  have e8 : List.foldl CanMap.crc32word 0x15757de (List.replicate 8 0xFFFFFFFF) = 0xb913ea7a := by decide
  have e9 : List.foldl CanMap.crc32word 0xb913ea7a (List.replicate 8 0xFFFFFFFF) = 0x57b1e409 := by decide
  have e10 : List.foldl CanMap.crc32word 0x57b1e409 (List.replicate 8 0xFFFFFFFF) = 0x475bc8c8 := by decide
  have e11 : List.foldl CanMap.crc32word 0x475bc8c8 (List.replicate 8 0xFFFFFFFF) = 0x6ce6cfe8 := by decide
  have e12 : List.foldl CanMap.crc32word 0x6ce6cfe8 (List.replicate 8 0xFFFFFFFF) = 0xf6f5e335 := by decide
  have e13 : List.foldl CanMap.crc32word 0xf6f5e335 (List.replicate 8 0xFFFFFFFF) = 0x6b5e0d12 := by decide
  have e14 : List.foldl CanMap.crc32word 0x6b5e0d12 (List.replicate 8 0xFFFFFFFF) = 0xf321826f := by decide
  have e15 : List.foldl CanMap.crc32word 0xf321826f (List.replicate 8 0xFFFFFFFF) = 0x42843c60 := by decide
  have e16 : List.foldl CanMap.crc32word 0x42843c60 (List.replicate 8 0xFFFFFFFF) = 0x7c5d0040 := by decide
  have e17 : List.foldl CanMap.crc32word 0x7c5d0040 (List.replicate 8 0xFFFFFFFF) = 0xd190f68a := by decide
  have e18 : List.foldl CanMap.crc32word 0xd190f68a (List.replicate 8 0xFFFFFFFF) = 0x3685ddb6 := by decide
  have e19 : List.foldl CanMap.crc32word 0x3685ddb6 (List.replicate 8 0xFFFFFFFF) = 0xe23126cc := by decide
  have e20 : List.foldl CanMap.crc32word 0xe23126cc (List.replicate 8 0xFFFFFFFF) = 0xece238c7 := by decide
  have e21 : List.foldl CanMap.crc32word 0xece238c7 (List.replicate 8 0xFFFFFFFF) = 0x5b4aaba8 := by decide
  have e22 : List.foldl CanMap.crc32word 0x5b4aaba8 (List.replicate 8 0xFFFFFFFF) = 0xb7b4132 := by decide
  have e23 : List.foldl CanMap.crc32word 0xb7b4132 (List.replicate 8 0xFFFFFFFF) = 0x641b703 := by decide
  have e24 : List.foldl CanMap.crc32word 0x641b703 (List.replicate 1 0xFFFFFFFF) = 0xc1ebce9 := by decide
  rw [CanMap.calculate_crc32_block, hrep]
  simp only [List.foldl_append, e0, e1, e2, e3, e4, e5, e6, e7, e8, e9, e10, e11, e12, e13, e14, e15, e16, e17, e18, e19, e20, e21, e22, e23, e24]
  decide

/-- Witness for C8 at a one-word blob with a wrong trailing CRC. -/
theorem load_crc_mismatch_witness :
    CanMap.calculate_crc32_block [0] ≠ 5 ∧
    CanMap.LoadFromFlash CanMap.initialState ⟨[0], ⟨[], [], []⟩, 5⟩ =
      (0, CanMap.initialState) :=
  ⟨by decide, load_crc_mismatch.1 CanMap.initialState ⟨[0], ⟨[], [], []⟩, 5⟩ (by decide)⟩

namespace CanMap

lemma getD_set (pool : List CANPOS) (i : ℕ) (v : CANPOS) (j : ℕ) :
    (pool.set i v).getD j defaultPos =
      if j = i ∧ i < pool.length then v else pool.getD j defaultPos := by
  by_cases h : j = i ∧ i < pool.length
  · obtain ⟨rfl, hlen⟩ := h
    simp [List.getD_eq_getElem?_getD, List.getElem?_set_self hlen, hlen]
  · rw [if_neg h]
    rcases Decidable.em (j = i) with rfl | hne
    · have hlen : pool.length ≤ j := by
        rcases Nat.lt_or_ge j pool.length with hl | hl
        · exact absurd ⟨rfl, hl⟩ h
        · exact hl
      rw [List.set_eq_of_length_le hlen]
    · simp [List.getD_eq_getElem?_getD, List.getElem?_set_ne (Ne.symm hne)]

lemma lt_length_of_live (pool : List CANPOS) (idx : ℕ)
    (h : (pool.getD idx defaultPos).next ≠ ITEM_UNSET) : idx < pool.length := by
  by_contra hc
  push_neg at hc
  rw [List.getD_eq_getElem?_getD, List.getElem?_eq_none hc] at h
  exact h rfl

lemma replaceChain_length (f : ℕ → ℕ) (pool : List CANPOS) (idx fuel : ℕ) :
    (ReplaceChain f pool idx fuel).length = pool.length := by
  induction fuel generalizing pool idx with
  | zero => rfl
  | succ fuel ih =>
    simp only [ReplaceChain]
    by_cases hs : (pool.getD idx defaultPos).next = ITEM_UNSET
    · rw [if_pos hs]
    · rw [if_neg hs, ih, List.length_set]

lemma replaceChain_next (f : ℕ → ℕ) (pool : List CANPOS) (idx fuel j : ℕ) :
    ((ReplaceChain f pool idx fuel).getD j defaultPos).next =
      (pool.getD j defaultPos).next := by
  induction fuel generalizing pool idx with
  | zero => rfl
  | succ fuel ih =>
    simp only [ReplaceChain]
    by_cases hs : (pool.getD idx defaultPos).next = ITEM_UNSET
    · rw [if_pos hs]
    · rw [if_neg hs, ih, getD_set]
      by_cases h : j = idx ∧ idx < pool.length
      · rw [if_pos h]
        obtain ⟨rfl, _⟩ := h
        rfl
      · rw [if_neg h]

lemma chainIndices_congr (p1 p2 : List CANPOS)
    (h : ∀ j, (p1.getD j defaultPos).next = (p2.getD j defaultPos).next)
    (idx fuel : ℕ) :
    chainIndices p1 idx fuel = chainIndices p2 idx fuel := by
  induction fuel generalizing idx with
  | zero => rfl
  | succ fuel ih =>
    simp only [chainIndices, h idx]
    by_cases hs : (p2.getD idx defaultPos).next = ITEM_UNSET
    · rw [if_pos hs, if_pos hs]
    · rw [if_neg hs, if_neg hs, ih]

lemma replaceChain_getD (f : ℕ → ℕ) (pool : List CANPOS) (idx fuel : ℕ)
    (hnd : (chainIndices pool idx fuel).Nodup) (j : ℕ) :
    (ReplaceChain f pool idx fuel).getD j defaultPos =
      if j ∈ chainIndices pool idx fuel then
        { pool.getD j defaultPos with
            mapParam := f (pool.getD j defaultPos).mapParam }
      else pool.getD j defaultPos := by
  induction fuel generalizing pool idx with
  | zero => simp [chainIndices, ReplaceChain]
  | succ fuel ih =>
    by_cases hs : (pool.getD idx defaultPos).next = ITEM_UNSET
    · have step : ReplaceChain f pool idx (fuel + 1) = pool := by
        simp only [ReplaceChain]
        rw [if_pos hs]
      have hchain : chainIndices pool idx (fuel + 1) = [] := by
        simp only [chainIndices]
        rw [if_pos hs]
      rw [step, hchain]
      simp
    · have hlen : idx < pool.length := lt_length_of_live pool idx hs
      have hchain : chainIndices pool idx (fuel + 1) =
          idx :: chainIndices pool (pool.getD idx defaultPos).next fuel := by
        simp only [chainIndices]
        rw [if_neg hs]
      rw [hchain] at hnd
      have hidx : idx ∉ chainIndices pool (pool.getD idx defaultPos).next fuel :=
        (List.nodup_cons.mp hnd).1
      have hrest : (chainIndices pool (pool.getD idx defaultPos).next fuel).Nodup :=
        (List.nodup_cons.mp hnd).2
      set s1 : CANPOS := { pool.getD idx defaultPos with
        mapParam := f (pool.getD idx defaultPos).mapParam } with hs1
      have hnexteq : ∀ k, ((pool.set idx s1).getD k defaultPos).next =
          (pool.getD k defaultPos).next := by
        intro k
        rw [getD_set]
        by_cases hk : k = idx ∧ idx < pool.length
        · rw [if_pos hk]
          obtain ⟨rfl, _⟩ := hk
          rfl
        · rw [if_neg hk]
      have hchain1 : chainIndices (pool.set idx s1) (pool.getD idx defaultPos).next fuel =
          chainIndices pool (pool.getD idx defaultPos).next fuel :=
        chainIndices_congr _ _ hnexteq _ _
      have step : ReplaceChain f pool idx (fuel + 1) =
          ReplaceChain f (pool.set idx s1) (pool.getD idx defaultPos).next fuel := by
        simp only [ReplaceChain]
        rw [if_neg hs]
      rw [step, ih (pool.set idx s1) (pool.getD idx defaultPos).next
        (hchain1 ▸ hrest), hchain1, hchain]
      by_cases hj : j = idx
      · subst hj
        rw [if_neg hidx, getD_set, if_pos ⟨rfl, hlen⟩]
        simp [List.mem_cons, hs1]
      · rw [getD_set,
          if_neg (show ¬(j = idx ∧ idx < pool.length) from fun hh => hj hh.1)]
        by_cases hjm : j ∈ chainIndices pool (pool.getD idx defaultPos).next fuel
        · rw [if_pos hjm, if_pos (List.mem_cons.mpr (Or.inr hjm))]
        · rw [if_neg hjm, if_neg (by
            intro hh
            rcases List.mem_cons.mp hh with hh1 | hh2
            · exact hj hh1
            · exact hjm hh2)]

lemma mapChainIndices_congr (p1 p2 : List CANPOS)
    (h : ∀ j, (p1.getD j defaultPos).next = (p2.getD j defaultPos).next) :
    ∀ entries, mapChainIndices p1 entries = mapChainIndices p2 entries := by
  intro entries
  induction entries with
  | nil => rfl
  | cons e rest ih =>
    simp only [mapChainIndices]
    by_cases hf : e.first = MAX_ITEMS
    · rw [if_pos hf, if_pos hf]
    · rw [if_neg hf, if_neg hf, ih, chainIndices_congr p1 p2 h]

lemma replaceMapChains_next (f : ℕ → ℕ) (entries : List CANIDMAP)
    (pool : List CANPOS) (j : ℕ) :
    ((ReplaceMapChains f entries pool).getD j defaultPos).next =
      (pool.getD j defaultPos).next := by
  induction entries generalizing pool with
  | nil => rfl
  | cons e rest ih =>
    simp only [ReplaceMapChains]
    by_cases hf : e.first = MAX_ITEMS
    · rw [if_pos hf]
    · rw [if_neg hf, ih, replaceChain_next]

lemma replaceMapChains_length (f : ℕ → ℕ) (entries : List CANIDMAP)
    (pool : List CANPOS) :
    (ReplaceMapChains f entries pool).length = pool.length := by
  induction entries generalizing pool with
  | nil => rfl
  | cons e rest ih =>
    simp only [ReplaceMapChains]
    by_cases hf : e.first = MAX_ITEMS
    · rw [if_pos hf]
    · rw [if_neg hf, ih, replaceChain_length]

lemma replaceMapChains_getD (f : ℕ → ℕ) (entries : List CANIDMAP)
    (pool : List CANPOS) (hnd : (mapChainIndices pool entries).Nodup) (j : ℕ) :
    (ReplaceMapChains f entries pool).getD j defaultPos =
      if j ∈ mapChainIndices pool entries then
        { pool.getD j defaultPos with
            mapParam := f (pool.getD j defaultPos).mapParam }
      else pool.getD j defaultPos := by
  induction entries generalizing pool with
  | nil => simp [ReplaceMapChains, mapChainIndices]
  | cons e rest ih =>
    by_cases hf : e.first = MAX_ITEMS
    · simp [ReplaceMapChains, mapChainIndices, hf]
    · have hsplit : mapChainIndices pool (e :: rest) =
          chainIndices pool e.first FUEL ++ mapChainIndices pool rest := by
        simp [mapChainIndices, hf]
      rw [hsplit] at hnd
      rw [List.nodup_append] at hnd
      obtain ⟨h1, h2, hdisj⟩ := hnd
      have hnexteq : ∀ k,
          ((ReplaceChain f pool e.first FUEL).getD k defaultPos).next =
            (pool.getD k defaultPos).next := fun k => replaceChain_next f pool e.first FUEL k
      have hchain1 : mapChainIndices (ReplaceChain f pool e.first FUEL) rest =
          mapChainIndices pool rest := mapChainIndices_congr _ _ hnexteq rest
      have step : ReplaceMapChains f (e :: rest) pool =
          ReplaceMapChains f rest (ReplaceChain f pool e.first FUEL) := by
        simp only [ReplaceMapChains]
        rw [if_neg hf]
      rw [step, ih (ReplaceChain f pool e.first FUEL) (hchain1 ▸ h2), hchain1,
        replaceChain_getD f pool e.first FUEL h1 j, hsplit]
      by_cases hc : j ∈ chainIndices pool e.first FUEL
      · have hr : j ∉ mapChainIndices pool rest := fun hr => hdisj hc hr
        rw [if_neg hr, if_pos hc, if_pos (List.mem_append.mpr (Or.inl hc))]
      · rw [if_neg hc]
        by_cases hr : j ∈ mapChainIndices pool rest
        · rw [if_pos hr, if_pos (List.mem_append.mpr (Or.inr hr))]
        · rw [if_neg hr, if_neg (by
            intro hh
            rcases List.mem_append.mp hh with hh1 | hh2
            · exact hc hh1
            · exact hr hh2)]

lemma replaceBoth_next (f : ℕ → ℕ) (send recv : List CANIDMAP)
    (pool : List CANPOS) (j : ℕ) :
    ((ReplaceMapChains f recv (ReplaceMapChains f send pool)).getD j defaultPos).next =
      (pool.getD j defaultPos).next := by
  rw [replaceMapChains_next, replaceMapChains_next]

lemma replaceBoth_getD (f : ℕ → ℕ) (send recv : List CANIDMAP) (pool : List CANPOS)
    (hnd : (mapChainIndices pool send ++ mapChainIndices pool recv).Nodup) (j : ℕ) :
    (ReplaceMapChains f recv (ReplaceMapChains f send pool)).getD j defaultPos =
      if j ∈ mapChainIndices pool send ++ mapChainIndices pool recv then
        { pool.getD j defaultPos with
            mapParam := f (pool.getD j defaultPos).mapParam }
      else pool.getD j defaultPos := by
  rw [List.nodup_append] at hnd
  obtain ⟨h1, h2, hdisj⟩ := hnd
  have hchains : mapChainIndices (ReplaceMapChains f send pool) recv =
      mapChainIndices pool recv :=
    mapChainIndices_congr _ _ (replaceMapChains_next f send pool) recv
  rw [replaceMapChains_getD f recv _ (hchains ▸ h2) j, hchains,
    replaceMapChains_getD f send pool h1 j]
  by_cases hs : j ∈ mapChainIndices pool send
  · have hr : j ∉ mapChainIndices pool recv := fun hr => hdisj hs hr
    rw [if_neg hr, if_pos hs, if_pos (List.mem_append.mpr (Or.inl hs))]
  · rw [if_neg hs]
    by_cases hr : j ∈ mapChainIndices pool recv
    · rw [if_pos hr, if_pos (List.mem_append.mpr (Or.inr hr))]
    · rw [if_neg hr, if_neg (by
        intro hh
        rcases List.mem_append.mp hh with hh1 | hh2
        · exact hs hh1
        · exact hr hh2)]

lemma canpos_mapParam_update_id (s : CANPOS) : ({ s with mapParam := s.mapParam } : CANPOS) = s := by
  cases s
  rfl

lemma list_eq_of_getD (l1 l2 : List CANPOS) (hlen : l1.length = l2.length)
    (h : ∀ j, l1.getD j defaultPos = l2.getD j defaultPos) : l1 = l2 := by
  apply List.ext_getElem?
  intro n
  rcases Nat.lt_or_ge n l1.length with hn | hn
  · have h2 : n < l2.length := hlen ▸ hn
    have hd := h n
    rw [List.getD_eq_getElem?_getD, List.getD_eq_getElem?_getD,
      List.getElem?_eq_getElem hn, List.getElem?_eq_getElem h2] at hd
    simp only [Option.getD_some] at hd
    rw [List.getElem?_eq_getElem hn, List.getElem?_eq_getElem h2, hd]
  · rw [List.getElem?_eq_none hn, List.getElem?_eq_none (hlen ▸ hn)]

lemma replaceBoth_inverse (f g : ℕ → ℕ) (send recv : List CANIDMAP)
    (pool : List CANPOS)
    (hnd : (mapChainIndices pool send ++ mapChainIndices pool recv).Nodup)
    (hinv : ∀ j ∈ mapChainIndices pool send ++ mapChainIndices pool recv,
      g (f ((pool.getD j defaultPos).mapParam)) = (pool.getD j defaultPos).mapParam) :
    ReplaceMapChains g recv (ReplaceMapChains g send
      (ReplaceMapChains f recv (ReplaceMapChains f send pool))) = pool := by
  set pool2 := ReplaceMapChains f recv (ReplaceMapChains f send pool) with hp2
  have hnext2 : ∀ k, (pool2.getD k defaultPos).next = (pool.getD k defaultPos).next :=
    fun k => replaceBoth_next f send recv pool k
  have hcs : mapChainIndices pool2 send = mapChainIndices pool send :=
    mapChainIndices_congr _ _ hnext2 send
  have hcr : mapChainIndices pool2 recv = mapChainIndices pool recv :=
    mapChainIndices_congr _ _ hnext2 recv
  have hnd2 : (mapChainIndices pool2 send ++ mapChainIndices pool2 recv).Nodup := by
    rw [hcs, hcr]
    exact hnd
  apply list_eq_of_getD
  · rw [hp2]
    simp [replaceMapChains_length]
  · intro j
    rw [replaceBoth_getD g send recv pool2 hnd2 j, hcs, hcr,
      replaceBoth_getD f send recv pool hnd j]
    by_cases hj : j ∈ mapChainIndices pool send ++ mapChainIndices pool recv
    · rw [if_pos hj, if_pos hj]
      have hgf := hinv j hj
      revert hgf
      generalize pool.getD j defaultPos = s
      intro hgf
      cases s
      simp only at hgf ⊢
      rw [hgf]
    · rw [if_neg hj, if_neg hj]

/-- The concrete registry has unique parameter ids: the index-to-id map is
inverted by `NumFromId` on every declared parameter. -/
lemma registry_id_inverse : ∀ m, m < Param.PARAM_LAST →
    Param.NumFromId ((Param.GetAttrib m).id) = m := by decide

end CanMap

/-- C7: on any well-formed map state (the chains walked by the rewrite
passes visit no slot twice and every visited slot holds a valid parameter
index), `Save` restores the RAM tables unchanged, and `LoadFromFlash` on the
written blob succeeds with 1 and reconstructs the send map, receive map and
slot pool byte-identically, the index-to-id rewrite being inverted exactly
by the id-to-index rewrite. -/
theorem save_load_roundtrip (st : CanMap.CanMapState)
    (hnd : (CanMap.savedIndices st).Nodup)
    (hlt : ∀ j ∈ CanMap.savedIndices st,
      (st.canPosMap.getD j CanMap.defaultPos).mapParam < Param.PARAM_LAST) :
    (CanMap.Save st).1 = st ∧
    CanMap.LoadFromFlash (CanMap.Save st).1 (CanMap.Save st).2 = (1, st) := by
  obtain ⟨send, recv, pool⟩ := st
  have hinv : ∀ j ∈ CanMap.mapChainIndices pool send ++ CanMap.mapChainIndices pool recv,
      Param.NumFromId ((Param.GetAttrib
        ((pool.getD j CanMap.defaultPos).mapParam)).id) =
        (pool.getD j CanMap.defaultPos).mapParam :=
    fun j hj => CanMap.registry_id_inverse _ (hlt j hj)
  have hpool := CanMap.replaceBoth_inverse (fun p => (Param.GetAttrib p).id)
    Param.NumFromId send recv pool hnd hinv
  constructor
  · show (⟨send, recv, _⟩ : CanMap.CanMapState) = ⟨send, recv, pool⟩
    simp only [CanMap.Save, CanMap.ReplaceParamEnumByUid, CanMap.ReplaceParamUidByEnum]
    rw [hpool]
  · simp only [CanMap.Save, CanMap.LoadFromFlash, CanMap.ReplaceParamEnumByUid,
      CanMap.ReplaceParamUidByEnum]
    simp only [eq_self_iff_true, if_true]
    rw [hpool]

/-- Witness for C7 at a one-slot send mapping. -/
theorem save_load_roundtrip_witness :
    ((CanMap.savedIndices
      ⟨(⟨0x200, 0⟩ : CanMap.CANIDMAP) :: List.replicate 9 CanMap.defaultIdMap,
        List.replicate 10 CanMap.defaultIdMap,
        (⟨0, 1, 0, 0, 16, CanMap.MAX_ITEMS⟩ : CanMap.CANPOS) ::
          List.replicate 50 CanMap.defaultPos⟩).Nodup ∧
    (∀ j ∈ CanMap.savedIndices
      ⟨(⟨0x200, 0⟩ : CanMap.CANIDMAP) :: List.replicate 9 CanMap.defaultIdMap,
        List.replicate 10 CanMap.defaultIdMap,
        (⟨0, 1, 0, 0, 16, CanMap.MAX_ITEMS⟩ : CanMap.CANPOS) ::
          List.replicate 50 CanMap.defaultPos⟩,
      (((⟨0, 1, 0, 0, 16, CanMap.MAX_ITEMS⟩ : CanMap.CANPOS) ::
          List.replicate 50 CanMap.defaultPos).getD j CanMap.defaultPos).mapParam <
        Param.PARAM_LAST)) ∧
    ((CanMap.Save
      ⟨(⟨0x200, 0⟩ : CanMap.CANIDMAP) :: List.replicate 9 CanMap.defaultIdMap,
        List.replicate 10 CanMap.defaultIdMap,
        (⟨0, 1, 0, 0, 16, CanMap.MAX_ITEMS⟩ : CanMap.CANPOS) ::
          List.replicate 50 CanMap.defaultPos⟩).1 =
      ⟨(⟨0x200, 0⟩ : CanMap.CANIDMAP) :: List.replicate 9 CanMap.defaultIdMap,
        List.replicate 10 CanMap.defaultIdMap,
        (⟨0, 1, 0, 0, 16, CanMap.MAX_ITEMS⟩ : CanMap.CANPOS) ::
          List.replicate 50 CanMap.defaultPos⟩ ∧
    CanMap.LoadFromFlash
      (CanMap.Save
        ⟨(⟨0x200, 0⟩ : CanMap.CANIDMAP) :: List.replicate 9 CanMap.defaultIdMap,
          List.replicate 10 CanMap.defaultIdMap,
          (⟨0, 1, 0, 0, 16, CanMap.MAX_ITEMS⟩ : CanMap.CANPOS) ::
            List.replicate 50 CanMap.defaultPos⟩).1
      (CanMap.Save
        ⟨(⟨0x200, 0⟩ : CanMap.CANIDMAP) :: List.replicate 9 CanMap.defaultIdMap,
          List.replicate 10 CanMap.defaultIdMap,
          (⟨0, 1, 0, 0, 16, CanMap.MAX_ITEMS⟩ : CanMap.CANPOS) ::
            List.replicate 50 CanMap.defaultPos⟩).2 =
      (1, ⟨(⟨0x200, 0⟩ : CanMap.CANIDMAP) :: List.replicate 9 CanMap.defaultIdMap,
        List.replicate 10 CanMap.defaultIdMap,
        (⟨0, 1, 0, 0, 16, CanMap.MAX_ITEMS⟩ : CanMap.CANPOS) ::
          List.replicate 50 CanMap.defaultPos⟩)) :=
  ⟨⟨by decide, by decide⟩,
    save_load_roundtrip
      ⟨(⟨0x200, 0⟩ : CanMap.CANIDMAP) :: List.replicate 9 CanMap.defaultIdMap,
        List.replicate 10 CanMap.defaultIdMap,
        (⟨0, 1, 0, 0, 16, CanMap.MAX_ITEMS⟩ : CanMap.CANPOS) ::
          List.replicate 50 CanMap.defaultPos⟩
      (by decide) (by decide)⟩

/-- Witness for C5 at parameter 0 (`canNodeId`) and input `704 = 22 * 32`. -/
theorem param_set_range_check_witness :
    (Param.GetType 0 = Param.TYPE_PARAM ∨ Param.GetType 0 = Param.TYPE_TESTPARAM) ∧
    ((((Param.GetAttrib 0).min ≤ Param.FP_TOFLOAT 704 ∧
        Param.FP_TOFLOAT 704 ≤ (Param.GetAttrib 0).max) →
      Param.Set (fun _ => 0) 0 704 =
        (0, Param.writeValue (fun _ => 0) 0 (Param.FP_TOFLOAT 704), true)) ∧
    (¬ ((Param.GetAttrib 0).min ≤ Param.FP_TOFLOAT 704 ∧
        Param.FP_TOFLOAT 704 ≤ (Param.GetAttrib 0).max) →
      Param.Set (fun _ => 0) 0 704 = (-1, fun _ => 0, false))) :=
  ⟨by decide, param_set_range_check (fun _ => 0) 0 704 (by decide)⟩

/-- C10 (amended): `unpack` runs the decode fold regardless of the CRC
verdict — for every non-empty buffer the resulting parameter store and
received counter equal the fold that writes each bound field's decoded
value through the range-validated `setValue` and stores the counter — and
on a concrete PDU a wrong-CRC buffer yields `false` while an in-range
decoded value still overwrites the bound parameter and the received
counter is stored.  Writes of out-of-range decoded values are rejected by
`setValue` (see the counterexample). -/
theorem unpack_writes_even_on_crc_failure :
    (∀ (pdu : oi.PDU) (descs : oi.Descs) (params : oi.Params) (buffer : List ℕ)
        (len : ℕ),
      1 ≤ len →
      (oi.unpack pdu descs params buffer len).2.1 =
        (pdu.elements.foldl (oi.unpackFold descs buffer len) (params, pdu.rxCounter)).1 ∧
      (oi.unpack pdu descs params buffer len).2.2.rxCounter =
        (pdu.elements.foldl (oi.unpackFold descs buffer len) (params, pdu.rxCounter)).2) ∧
    ((oi.unpack
        ⟨0x123, [oi.Element.fieldE (some 0) 0 8 ⟨1, 0⟩,
          oi.Element.counterE 8 4 16, oi.Element.crc8E 16 0 0x1D 8], 0, 0⟩
        (fun _ => (0, 255)) (fun _ => 0) [5, 3, 0xD8, 0, 0, 0, 0, 0] 8).1 = false ∧
      (oi.unpack
        ⟨0x123, [oi.Element.fieldE (some 0) 0 8 ⟨1, 0⟩,
          oi.Element.counterE 8 4 16, oi.Element.crc8E 16 0 0x1D 8], 0, 0⟩
        (fun _ => (0, 255)) (fun _ => 0) [5, 3, 0xD8, 0, 0, 0, 0, 0] 8).2.1 0 = 5 ∧
      (oi.unpack
        ⟨0x123, [oi.Element.fieldE (some 0) 0 8 ⟨1, 0⟩,
          oi.Element.counterE 8 4 16, oi.Element.crc8E 16 0 0x1D 8], 0, 0⟩
        (fun _ => (0, 255)) (fun _ => 0) [5, 3, 0xD8, 0, 0, 0, 0, 0] 8).2.2.rxCounter
        = 3) := by
  constructor
  · intro pdu descs params buffer len h
    have hl : ¬(len = 0) := by omega
    constructor <;> simp [oi.unpack, hl]
  · refine ⟨by decide, ?_, by decide⟩
    have hg : oi.getBits [5, 3, 0xD8, 0, 0, 0, 0, 0] 8 0 8 = 5 := by decide
    norm_num [oi.unpack, oi.unpackFold, oi.setValue, oi.writeParam, oi.decodeValue,
      oi.toInt64, List.foldl_cons, List.foldl_nil, hg]

/-- Witness for C10 applying the general clause at a concrete buffer. -/
theorem unpack_writes_even_on_crc_failure_witness :
    (1 ≤ 8) ∧
    ((oi.unpack ⟨7, [oi.Element.fieldE (some 1) 0 8 ⟨1, 0⟩], 0, 0⟩
        (fun _ => (0, 255)) (fun _ => 0) [9, 0, 0, 0, 0, 0, 0, 0] 8).2.1 =
      (([oi.Element.fieldE (some 1) 0 8 ⟨1, 0⟩]).foldl
        (oi.unpackFold (fun _ => (0, 255)) [9, 0, 0, 0, 0, 0, 0, 0] 8)
        (fun _ => 0, 0)).1 ∧
    (oi.unpack ⟨7, [oi.Element.fieldE (some 1) 0 8 ⟨1, 0⟩], 0, 0⟩
        (fun _ => (0, 255)) (fun _ => 0) [9, 0, 0, 0, 0, 0, 0, 0] 8).2.2.rxCounter =
      (([oi.Element.fieldE (some 1) 0 8 ⟨1, 0⟩]).foldl
        (oi.unpackFold (fun _ => (0, 255)) [9, 0, 0, 0, 0, 0, 0, 0] 8)
        (fun _ => 0, 0)).2) :=
  ⟨by decide,
    unpack_writes_even_on_crc_failure.1
      ⟨7, [oi.Element.fieldE (some 1) 0 8 ⟨1, 0⟩], 0, 0⟩
      (fun _ => (0, 255)) (fun _ => 0) [9, 0, 0, 0, 0, 0, 0, 0] 8 (by decide)⟩

/-- Counterexample to C10 as stated: `unpack` does not write the decoded
value of every bound field — the write goes through
`Parameter<T>::setValue`, whose range validation rejects an out-of-range
candidate and leaves the stored value unchanged.  Here the field decodes
to 5 against parameter bounds `[0, 4]`, so the parameter keeps its prior
value 0. -/
theorem unpack_range_rejection_counterexample :
    (oi.unpack
      ⟨0x123, [oi.Element.fieldE (some 0) 0 8 ⟨1, 0⟩,
        oi.Element.counterE 8 4 16, oi.Element.crc8E 16 0 0x1D 8], 0, 0⟩
      (fun _ => (0, 4)) (fun _ => 0) [5, 3, 0xD8, 0, 0, 0, 0, 0] 8).2.1 0 = 0 ∧
    oi.decodeValue (oi.toInt64 (oi.getBits [5, 3, 0xD8, 0, 0, 0, 0, 0] 8 0 8))
      ⟨1, 0⟩ = 5 ∧
    ¬ ((0 : ℚ) ≤ 5 ∧ (5 : ℚ) ≤ 4) := by
  have hg : oi.getBits [5, 3, 0xD8, 0, 0, 0, 0, 0] 8 0 8 = 5 := by decide
  refine ⟨?_, ?_, by norm_num⟩
  · norm_num [oi.unpack, oi.unpackFold, oi.setValue, oi.writeParam, oi.decodeValue,
      oi.toInt64, List.foldl_cons, List.foldl_nil, hg]
  · norm_num [oi.decodeValue, oi.toInt64, hg]

/-- Counterexample to C9 as stated: on a PDU whose only element is a CRC8
descriptor, `pack` always produces the all-zero payload (with CRC 0), yet
`unpack` also returns true on a different buffer that was never produced
by `pack`. -/
theorem pdu_crc_counterexample :
    (∀ (params : oi.Params) (ctr rx : ℕ),
      (oi.pack ⟨0x10, [oi.Element.crc8E 56 0 0x1D 8], ctr, rx⟩ params 8).1 =
        List.replicate 8 0) ∧
    (oi.unpack ⟨0x10, [oi.Element.crc8E 56 0 0x1D 8], 0, 0⟩ (fun _ => (0, 0))
      (fun _ => 0) [1, 0, 0, 0, 0, 0, 0, 0x5F] 8).1 = true ∧
    [1, 0, 0, 0, 0, 0, 0, 0x5F] ≠ List.replicate 8 (0 : ℕ) := by
  refine ⟨fun params ctr rx => ?_, by decide, by decide⟩
  rw [oi.pack]
  simp only [if_neg (by norm_num : ¬(8 = 0))]
  show oi.applyCRC [oi.Element.crc8E 56 0 0x1D 8] (List.replicate 8 0) 8 =
    List.replicate 8 0
  rfl

namespace oi

lemma getD_set_generic {α : Type} (l : List α) (d : α) (i : ℕ) (v : α) (j : ℕ) :
    (l.set i v).getD j d = if j = i ∧ i < l.length then v else l.getD j d := by
  by_cases h : j = i ∧ i < l.length
  · obtain ⟨rfl, hlen⟩ := h
    simp [List.getD_eq_getElem?_getD, List.getElem?_set_self hlen, hlen]
  · rw [if_neg h]
    rcases Decidable.em (j = i) with rfl | hne
    · have hlen : l.length ≤ j := by
        rcases Nat.lt_or_ge j l.length with hl | hl
        · exact absurd ⟨rfl, hl⟩ h
        · exact hl
      rw [List.set_eq_of_length_le hlen]
    · simp [List.getD_eq_getElem?_getD, List.getElem?_set_ne (Ne.symm hne)]

lemma setBitsStep_length (buffer : List ℕ) (len sb v i : ℕ) :
    (setBitsStep buffer len sb v i).length = buffer.length := by
  simp only [setBitsStep]
  split_ifs <;> simp

lemma setBits_length (buffer : List ℕ) (len sb : ℕ) :
    ∀ (n v : ℕ), (setBits buffer len sb n v).length = buffer.length := by
  intro n v
  induction n with
  | zero => rfl
  | succ n ih => rw [setBits, setBitsStep_length, ih]

lemma getD_lt_256 (buffer : List ℕ) (h : ∀ b ∈ buffer, b < 256) (i : ℕ) :
    buffer.getD i 0 < 256 := by
  rcases Nat.lt_or_ge i buffer.length with hi | hi
  · rw [List.getD_eq_getElem?_getD, List.getElem?_eq_getElem hi]
    exact h _ (List.getElem_mem hi)
  · rw [List.getD_eq_getElem?_getD, List.getElem?_eq_none hi]
    norm_num

lemma setBitsStep_bytes (buffer : List ℕ) (len sb v i : ℕ)
    (h : ∀ b ∈ buffer, b < 256) :
    ∀ b ∈ setBitsStep buffer len sb v i, b < 256 := by
  simp only [setBitsStep]
  split_ifs with h1 h2
  · exact h
  · intro b hb
    rcases List.mem_or_eq_of_mem_set hb with hb | rfl
    · exact h b hb
    · have h8 : (256 : ℕ) = 2 ^ 8 := by norm_num
      rw [h8]
      apply Nat.or_lt_two_pow (h8 ▸ getD_lt_256 buffer h _)
      rw [Nat.one_shiftLeft]
      exact Nat.pow_lt_pow_right (by norm_num) (Nat.mod_lt _ (by norm_num))
  · intro b hb
    rcases List.mem_or_eq_of_mem_set hb with hb | rfl
    · exact h b hb
    · exact lt_of_le_of_lt Nat.and_le_left (getD_lt_256 buffer h _)

lemma setBits_bytes (buffer : List ℕ) (len sb : ℕ) (n v : ℕ)
    (h : ∀ b ∈ buffer, b < 256) :
    ∀ b ∈ setBits buffer len sb n v, b < 256 := by
  induction n with
  | zero => exact h
  | succ n ih => exact setBitsStep_bytes _ len sb v n ih

lemma bit_and_one_eq_one (v i : ℕ) : ((v >>> i) &&& 1 = 1) ↔ v.testBit i = true := by
  rw [Nat.and_one_is_mod, Nat.shiftRight_eq_div_pow, Nat.testBit_to_div_mod]
  simp

lemma bitAtB_setBitsStep (buffer : List ℕ) (len sb v i k : ℕ) :
    bitAtB (setBitsStep buffer len sb v i) k =
      if k = sb + i ∧ (sb + i) / 8 < len ∧ (sb + i) / 8 < buffer.length then
        v.testBit i
      else bitAtB buffer k := by
  have hk8 : k = 8 * (k / 8) + k % 8 := (Nat.div_add_mod k 8).symm
  have hsb8 : sb + i = 8 * ((sb + i) / 8) + (sb + i) % 8 :=
    (Nat.div_add_mod (sb + i) 8).symm
  have hm8 : (sb + i) % 8 < 8 := Nat.mod_lt _ (by norm_num)
  have hkm8 : k % 8 < 8 := Nat.mod_lt _ (by norm_num)
  simp only [setBitsStep]
  by_cases hg : len ≤ (sb + i) / 8
  · rw [if_pos hg, if_neg (by omega)]
  · rw [if_neg hg]
    by_cases hB : (sb + i) / 8 < buffer.length
    swap
    · by_cases hbit : (v >>> i) &&& 1 = 1
      · rw [if_pos hbit, List.set_eq_of_length_le
            (show buffer.length ≤ (sb + i) / 8 by omega),
          if_neg (show ¬(k = sb + i ∧ (sb + i) / 8 < len ∧
            (sb + i) / 8 < buffer.length) by tauto)]
      · rw [if_neg hbit, List.set_eq_of_length_le
            (show buffer.length ≤ (sb + i) / 8 by omega),
          if_neg (show ¬(k = sb + i ∧ (sb + i) / 8 < len ∧
            (sb + i) / 8 < buffer.length) by tauto)]
    · have hbyte : ∀ x, bitAtB (buffer.set ((sb + i) / 8) x) k =
          if k / 8 = (sb + i) / 8 then x.testBit (k % 8) else bitAtB buffer k := by
        intro x
        rw [bitAtB, getD_set_generic]
        by_cases hkB : k / 8 = (sb + i) / 8
        · rw [if_pos ⟨hkB, hB⟩, if_pos hkB]
        · rw [if_neg (by tauto), if_neg hkB, bitAtB]
      by_cases hbit : (v >>> i) &&& 1 = 1
      · have hv : v.testBit i = true := (bit_and_one_eq_one v i).mp hbit
        rw [if_pos hbit, hbyte]
        by_cases hkB : k / 8 = (sb + i) / 8
        · rw [if_pos hkB, Nat.one_shiftLeft, Nat.testBit_or, Nat.testBit_two_pow]
          by_cases hkp : k % 8 = (sb + i) % 8
          · have hkeq : k = sb + i := by omega
            rw [if_pos ⟨hkeq, by omega, hB⟩, hv]
            simp [hkp]
          · have hne2 : ¬((sb + i) % 8 = k % 8) := fun hh => hkp hh.symm
            rw [if_neg (by intro hh; exact hkp (by rw [hh.1]))]
            simp [hne2, bitAtB, hkB]
        · rw [if_neg hkB, if_neg (by intro hh; exact hkB (by rw [hh.1]))]
      · have hv : v.testBit i = false := by
          cases hvb : v.testBit i with
          | false => rfl
          | true => exact absurd ((bit_and_one_eq_one v i).mpr hvb) hbit
        rw [if_neg hbit, hbyte]
        by_cases hkB : k / 8 = (sb + i) / 8
        · rw [if_pos hkB, Nat.one_shiftLeft, Nat.testBit_and, Nat.testBit_xor]
          have h255 : (255 : ℕ) = 2 ^ 8 - 1 := by norm_num
          rw [h255, Nat.testBit_two_pow_sub_one, Nat.testBit_two_pow]
          by_cases hkp : k % 8 = (sb + i) % 8
          · have hkeq : k = sb + i := by omega
            rw [if_pos ⟨hkeq, by omega, hB⟩, hv]
            simp [hkp, hm8]
          · have hne2 : ¬((sb + i) % 8 = k % 8) := fun hh => hkp hh.symm
            rw [if_neg (by intro hh; exact hkp (by rw [hh.1]))]
            simp [hne2, hkm8, bitAtB, hkB]
        · rw [if_neg hkB, if_neg (by intro hh; exact hkB (by rw [hh.1]))]

lemma bitAtB_setBits (buffer : List ℕ) (len sb v : ℕ) :
    ∀ (n k : ℕ), bitAtB (setBits buffer len sb n v) k =
      if sb ≤ k ∧ k < sb + n ∧ k / 8 < len ∧ k / 8 < buffer.length then
        v.testBit (k - sb)
      else bitAtB buffer k := by
  intro n
  induction n with
  | zero =>
    intro k
    rw [setBits, if_neg (by omega)]
  | succ n ih =>
    intro k
    rw [setBits, bitAtB_setBitsStep, setBits_length]
    by_cases hk : k = sb + n
    · subst hk
      by_cases hin : (sb + n) / 8 < len ∧ (sb + n) / 8 < buffer.length
      · rw [if_pos ⟨rfl, hin.1, hin.2⟩, if_pos (by omega), Nat.add_sub_cancel_left]
      · rw [if_neg (by tauto), ih, if_neg (by omega), if_neg (by omega)]
    · rw [if_neg (by tauto), ih]
      by_cases hin : sb ≤ k ∧ k < sb + n ∧ k / 8 < len ∧ k / 8 < buffer.length
      · rw [if_pos hin, if_pos (by omega)]
      · rw [if_neg hin, if_neg (by omega)]

lemma getBitAt_eq (buffer : List ℕ) (len k : ℕ) :
    getBitAt buffer len k = if len ≤ k / 8 then 0 else (bitAtB buffer k).toNat := by
  rw [getBitAt, bitAtB]
  by_cases hg : len ≤ k / 8
  · rw [if_pos hg, if_pos hg]
  · rw [if_neg hg, if_neg hg, Nat.and_one_is_mod, Nat.shiftRight_eq_div_pow,
      Nat.toNat_testBit]

lemma getBitAt_le_one (buffer : List ℕ) (len k : ℕ) :
    getBitAt buffer len k ≤ 1 := by
  rw [getBitAt_eq]
  by_cases hg : len ≤ k / 8
  · rw [if_pos hg]
    norm_num
  · rw [if_neg hg]
    exact Bool.toNat_le _

lemma getBits_lt (buffer : List ℕ) (len sb : ℕ) :
    ∀ n, getBits buffer len sb n < 2 ^ n := by
  intro n
  induction n with
  | zero => norm_num [getBits]
  | succ n ih =>
    rw [getBits]
    apply Nat.or_lt_two_pow
    · exact lt_of_lt_of_le ih (Nat.pow_le_pow_right (by norm_num) (by omega))
    · rw [Nat.shiftLeft_eq, pow_succ]
      have h1 := getBitAt_le_one buffer len (sb + n)
      have h2 : (0 : ℕ) < 2 ^ n := Nat.pos_pow_of_pos n (by norm_num)
      have h3 : getBitAt buffer len (sb + n) * 2 ^ n ≤ 1 * 2 ^ n :=
        Nat.mul_le_mul_right _ h1
      omega

lemma testBit_getBits (buffer : List ℕ) (len sb : ℕ) :
    ∀ (n j : ℕ), (getBits buffer len sb n).testBit j =
      (decide (j < n) && decide (getBitAt buffer len (sb + j) = 1)) := by
  intro n
  induction n with
  | zero =>
    intro j
    simp [getBits]
  | succ n ih =>
    intro j
    rw [getBits, Nat.testBit_or, ih j, Nat.testBit_shiftLeft]
    rcases Nat.lt_trichotomy j n with hj | rfl | hj
    · have h1 : ¬(n ≤ j) := by omega
      simp [hj, h1, show j < n + 1 by omega]
    · have h1 : (getBitAt buffer len (sb + j)).testBit 0 =
          decide (getBitAt buffer len (sb + j) = 1) := by
        have := getBitAt_le_one buffer len (sb + j)
        interval_cases h : getBitAt buffer len (sb + j) <;> simp
      simp [h1, Nat.sub_self]
    · have h1 : ¬(j < n) := by omega
      have h2 : ¬(j < n + 1) := by omega
      have h3 : (getBitAt buffer len (sb + n)).testBit (j - n) = false := by
        have hle := getBitAt_le_one buffer len (sb + n)
        apply Nat.testBit_lt_two_pow
        have : (1 : ℕ) < 2 ^ (j - n) := by
          have : 0 < j - n := by omega
          calc (1 : ℕ) < 2 ^ 1 := by norm_num
            _ ≤ 2 ^ (j - n) := Nat.pow_le_pow_right (by norm_num) (by omega)
        omega
      simp [h1, h2, h3, show n ≤ j by omega]

lemma getBits_setBits_roundtrip (buffer : List ℕ) (len sb bl v : ℕ)
    (hv : v < 2 ^ bl) (hrange : sb + bl ≤ 8 * len) (hlen : len ≤ buffer.length) :
    getBits (setBits buffer len sb bl v) len sb bl = v := by
  apply Nat.eq_of_testBit_eq
  intro j
  rw [testBit_getBits]
  by_cases hj : j < bl
  · have hdiv : (sb + j) / 8 < len := by
      apply Nat.div_lt_of_lt_mul
      omega
    rw [getBitAt_eq, if_neg (by omega), bitAtB_setBits,
      if_pos ⟨by omega, by omega, by omega, by omega⟩, Nat.add_sub_cancel_left]
    cases hvb : v.testBit j <;> simp [hj, hvb]
  · have : v.testBit j = false :=
      Nat.testBit_lt_two_pow (lt_of_lt_of_le hv (Nat.pow_le_pow_right (by norm_num) (by omega)))
    simp [hj, this]

lemma copyTemp_length (buffer : List ℕ) (len : ℕ) :
    (copyTemp buffer len).length = 8 := by
  simp [copyTemp]

lemma copyTemp_getD (buffer : List ℕ) (len j : ℕ) :
    (copyTemp buffer len).getD j 0 =
      if j < 8 ∧ j < len then buffer.getD j 0 else 0 := by
  rw [copyTemp, List.getD_eq_getElem?_getD, List.getElem?_map]
  by_cases hj : j < 8
  · rw [List.getElem?_range hj]
    by_cases hl : j < len
    · rw [if_pos ⟨hj, hl⟩]
      simp [hl]
    · rw [if_neg (by tauto)]
      simp [hl]
  · rw [if_neg (by tauto), List.getElem?_eq_none (by simpa using hj)]
    rfl

lemma copyTemp_bytes (buffer : List ℕ) (len : ℕ)
    (h : ∀ b ∈ buffer, b < 256) :
    ∀ b ∈ copyTemp buffer len, b < 256 := by
  intro b hb
  rw [copyTemp, List.mem_map] at hb
  obtain ⟨i, _, rfl⟩ := hb
  by_cases hl : i < len
  · rw [if_pos hl]
    exact getD_lt_256 buffer h i
  · rw [if_neg hl]
    norm_num

lemma bitAtB_copyTemp (buffer : List ℕ) (len k : ℕ) :
    bitAtB (copyTemp buffer len) k =
      if k / 8 < 8 ∧ k / 8 < len then bitAtB buffer k else false := by
  rw [bitAtB, copyTemp_getD]
  by_cases hc : k / 8 < 8 ∧ k / 8 < len
  · rw [if_pos hc, if_pos hc, bitAtB]
  · rw [if_neg hc, if_neg hc, Nat.zero_testBit]

lemma byte_eq_of_bits (x y : ℕ) (hx : x < 256) (hy : y < 256)
    (h : ∀ p < 8, x.testBit p = y.testBit p) : x = y := by
  apply Nat.eq_of_testBit_eq
  intro i
  by_cases hi : i < 8
  · exact h i hi
  · have h8 : (256 : ℕ) = 2 ^ 8 := by norm_num
    rw [Nat.testBit_lt_two_pow, Nat.testBit_lt_two_pow]
    · exact lt_of_lt_of_le (h8 ▸ hy) (Nat.pow_le_pow_right (by norm_num) (by omega))
    · exact lt_of_lt_of_le (h8 ▸ hx) (Nat.pow_le_pow_right (by norm_num) (by omega))

lemma computeCRC8_congr (d1 d2 : List ℕ) (len init poly : ℕ)
    (h : ∀ i < len, d1.getD i 0 = d2.getD i 0) :
    computeCRC8 d1 len init poly = computeCRC8 d2 len init poly := by
  induction len with
  | zero => rfl
  | succ n ih =>
    simp only [computeCRC8, List.range_succ, List.foldl_append,
      List.foldl_cons, List.foldl_nil]
    have hn := ih (fun i hi => h i (by omega))
    simp only [computeCRC8] at hn
    rw [hn, h n (by omega)]

lemma crc8Rounds_lt (poly : ℕ) (hpoly : poly < 256) :
    ∀ (b : ℕ) (crc : ℕ), 0 < b → crc8Rounds poly crc b < 256 := by
  intro b
  induction b with
  | zero => omega
  | succ b ih =>
    intro crc _
    rw [crc8Rounds]
    rcases Nat.eq_zero_or_pos b with rfl | hb
    · have hstep : ∀ c : ℕ, c < 256 → crc8Rounds poly c 0 < 256 := by
        intro c hc
        exact hc
      apply hstep
      have h8 : (256 : ℕ) = 2 ^ 8 := by norm_num
      split_ifs
      · exact Nat.mod_lt _ (by norm_num)
      · rw [h8]
        exact Nat.xor_lt_two_pow (h8 ▸ Nat.mod_lt _ (by norm_num)) (h8 ▸ hpoly)
    · exact ih _ hb

lemma computeCRC8_lt (data : List ℕ) (len init poly : ℕ)
    (hlen : 1 ≤ len) (hpoly : poly < 256) :
    computeCRC8 data len init poly < 256 := by
  rcases Nat.exists_eq_add_of_le hlen with ⟨n, rfl⟩
  rw [computeCRC8, show 1 + n = n + 1 by omega, List.range_succ, List.foldl_append,
    List.foldl_cons, List.foldl_nil]
  exact crc8Rounds_lt poly hpoly 8 _ (by norm_num)

lemma packAcc_length (params : Params) (len : ℕ) :
    ∀ (elements : List Element) (acc : List ℕ × ℕ),
      ((elements.foldl (packFold params len) acc).1).length = acc.1.length := by
  intro elements
  induction elements with
  | nil => intro acc; rfl
  | cons e rest ih =>
    intro acc
    rw [List.foldl_cons, ih]
    cases e with
    | counterE sb bl m => simp [packFold, setBits_length]
    | crc8E a b c d => rfl
    | fieldE p sb bl sc =>
      cases p with
      | none => rfl
      | some idx => simp [packFold, setBits_length]

lemma packAcc_bytes (params : Params) (len : ℕ) :
    ∀ (elements : List Element) (acc : List ℕ × ℕ),
      (∀ b ∈ acc.1, b < 256) →
      ∀ b ∈ (elements.foldl (packFold params len) acc).1, b < 256 := by
  intro elements
  induction elements with
  | nil => intro acc h; exact h
  | cons e rest ih =>
    intro acc h
    rw [List.foldl_cons]
    apply ih
    cases e with
    | counterE sb bl m => exact setBits_bytes _ _ _ _ _ h
    | crc8E a b c d => exact h
    | fieldE p sb bl sc =>
      cases p with
      | none => exact h
      | some idx => exact setBits_bytes _ _ _ _ _ h

end oi

/-- C9 (amended): `unpack` returns true exactly when `validateCRC` holds,
i.e. when the CRC recomputed over the buffer with the CRC range zeroed
equals the received CRC bits; in particular `pack` followed by `unpack` on
the produced buffer returns true whenever the CRC descriptor covers at
least 8 in-buffer bits, but (see the counterexample) a buffer that was
never produced by `pack` can also validate. -/
theorem unpack_crc_characterization :
    (∀ (pdu : oi.PDU) (descs : oi.Descs) (params : oi.Params) (buffer : List ℕ)
        (len : ℕ),
      1 ≤ len →
      (oi.unpack pdu descs params buffer len).1 =
        oi.validateCRC pdu.elements buffer len) ∧
    (∀ (pdu : oi.PDU) (params : oi.Params) (descs2 : oi.Descs) (params2 : oi.Params)
        (len sb init poly bl : ℕ),
      1 ≤ len → len ≤ 8 →
      oi.findLastCRC pdu.elements = some (sb, init, poly, bl) →
      8 ≤ bl → sb + bl ≤ 8 * len → poly < 256 →
      (oi.unpack (oi.pack pdu params len).2 descs2 params2
        (oi.pack pdu params len).1 len).1 = true) := by
  have part1 : ∀ (pdu : oi.PDU) (descs : oi.Descs) (params : oi.Params)
      (buffer : List ℕ) (len : ℕ),
      1 ≤ len →
      (oi.unpack pdu descs params buffer len).1 =
        oi.validateCRC pdu.elements buffer len := by
    intro pdu descs params buffer len h
    have hl : ¬(len = 0) := by omega
    simp [oi.unpack, hl]
  refine ⟨part1, ?_⟩
  intro pdu params descs2 params2 len sb init poly bl h1 h8 hfind hbl hrange hpoly
  have hlne : ¬(len = 0) := by omega
  have helem : (oi.pack pdu params len).2.elements = pdu.elements := by
    rw [oi.pack, if_neg hlne]
  rw [part1 _ descs2 params2 _ len h1, helem]
  have hkey : (oi.pack pdu params len).1 =
      oi.applyCRC pdu.elements
        ((pdu.elements.foldl (oi.packFold params len)
          (List.replicate len 0, pdu.counterValue)).1) len := by
    rw [oi.pack, if_neg hlne]
  rw [hkey]
  set preBuf := (pdu.elements.foldl (oi.packFold params len)
    (List.replicate len 0, pdu.counterValue)).1 with hpre
  have hprelen : preBuf.length = len := by
    rw [hpre, oi.packAcc_length]
    simp
  have hprebytes : ∀ b ∈ preBuf, b < 256 := by
    rw [hpre]
    apply oi.packAcc_bytes
    intro b hb
    have := List.eq_of_mem_replicate hb
    omega
  simp only [oi.validateCRC, oi.applyCRC, hfind]
  set crc := oi.computeCRC8 (oi.setBits (oi.copyTemp preBuf len) len sb bl 0)
    len init poly with hcrc
  have hcrclt : crc < 256 := oi.computeCRC8_lt _ len init poly h1 hpoly
  have hrecv : oi.getBits (oi.setBits preBuf len sb bl crc) len sb bl = crc := by
    apply oi.getBits_setBits_roundtrip preBuf len sb bl crc
    · have h8' : (256 : ℕ) = 2 ^ 8 := by norm_num
      exact lt_of_lt_of_le (h8' ▸ hcrclt) (Nat.pow_le_pow_right (by norm_num) hbl)
    · exact hrange
    · omega
  have hT : ∀ i < len,
      (oi.setBits (oi.copyTemp (oi.setBits preBuf len sb bl crc) len) len sb bl 0).getD i 0 =
      (oi.setBits (oi.copyTemp preBuf len) len sb bl 0).getD i 0 := by
    intro i hi
    have hi8 : i < 8 := by omega
    apply oi.byte_eq_of_bits
    · apply oi.getD_lt_256
      apply oi.setBits_bytes
      apply oi.copyTemp_bytes
      exact oi.setBits_bytes _ _ _ _ _ hprebytes
    · apply oi.getD_lt_256
      apply oi.setBits_bytes
      exact oi.copyTemp_bytes _ _ hprebytes
    · intro p hp
      have hbit2 : ∀ (X : List ℕ), (oi.setBits (oi.copyTemp X len) len sb bl 0).getD i 0 =
          (oi.setBits (oi.copyTemp X len) len sb bl 0).getD ((8 * i + p) / 8) 0 := by
        intro X
        congr 1
        omega
      have hdiv : (8 * i + p) / 8 = i := by omega
      have hmod : (8 * i + p) % 8 = p := by omega
      have hview : ∀ (X : List ℕ),
          ((oi.setBits (oi.copyTemp X len) len sb bl 0).getD i 0).testBit p =
            oi.bitAtB (oi.setBits (oi.copyTemp X len) len sb bl 0) (8 * i + p) := by
        intro X
        rw [oi.bitAtB, hdiv, hmod]
      rw [hview, hview]
      set k := 8 * i + p with hk
      rw [oi.bitAtB_setBits, oi.bitAtB_setBits, oi.copyTemp_length, oi.copyTemp_length]
      by_cases hc : sb ≤ k ∧ k < sb + bl
      · rw [if_pos ⟨hc.1, hc.2, by omega, by omega⟩,
          if_pos ⟨hc.1, hc.2, by omega, by omega⟩]
      · rw [if_neg (by tauto), if_neg (by tauto),
          oi.bitAtB_copyTemp, oi.bitAtB_copyTemp, if_pos ⟨by omega, by omega⟩,
          if_pos ⟨by omega, by omega⟩, oi.bitAtB_setBits]
        rw [if_neg (by tauto)]
  have hcomp : oi.computeCRC8
      (oi.setBits (oi.copyTemp (oi.setBits preBuf len sb bl crc) len) len sb bl 0)
      len init poly = crc := by
    rw [hcrc]
    exact oi.computeCRC8_congr _ _ len init poly hT
  rw [hcomp, hrecv]
  simp

/-- Witness for C9 (amended) at a concrete field-plus-CRC PDU. -/
theorem unpack_crc_characterization_witness :
    ((1 : ℕ) ≤ 8 ∧ (8 : ℕ) ≤ 8 ∧
      oi.findLastCRC [oi.Element.fieldE (some 0) 0 8 ⟨1, 0⟩,
        oi.Element.crc8E 8 0 0x1D 8] = some (8, 0, 0x1D, 8) ∧
      (8 : ℕ) ≤ 8 ∧ 8 + 8 ≤ 8 * 8 ∧ (0x1D : ℕ) < 256) ∧
    (oi.unpack
      (oi.pack ⟨1, [oi.Element.fieldE (some 0) 0 8 ⟨1, 0⟩,
        oi.Element.crc8E 8 0 0x1D 8], 0, 0⟩ (fun _ => 0) 8).2
      (fun _ => (0, 0)) (fun _ => 0)
      (oi.pack ⟨1, [oi.Element.fieldE (some 0) 0 8 ⟨1, 0⟩,
        oi.Element.crc8E 8 0 0x1D 8], 0, 0⟩ (fun _ => 0) 8).1 8).1 = true :=
  ⟨⟨by decide, by decide, by decide, by decide, by decide, by decide⟩,
    unpack_crc_characterization.2
      ⟨1, [oi.Element.fieldE (some 0) 0 8 ⟨1, 0⟩, oi.Element.crc8E 8 0 0x1D 8], 0, 0⟩
      (fun _ => 0) (fun _ => (0, 0)) (fun _ => 0) 8 8 0 0x1D 8
      (by decide) (by decide) (by decide) (by decide) (by decide) (by decide)⟩
